import Mathlib

/-!
Shallow embedding of the graph layout engine of the Arc Raiders interactive
quest viewer (`src/js/app.js`, function `calculateLayout`, lines 198-270,
with its inner recursive helper `assignLevel`).

JavaScript `Map`s are modelled as association lists with `Map.set` semantics
(update in place if the key is present, else append, preserving insertion
order, which `Map` iteration follows); JavaScript `Set`s are modelled as
duplicate-free lists.  The recursion of `assignLevel` is not structurally
terminating (and in fact diverges on some inputs), so it is modelled with an
explicit fuel parameter: `none` means the fuel ran out, i.e. the JavaScript
computation would still be recursing at that depth.
-/

namespace QuestViewer

/-- A quest record, restricted to the fields `calculateLayout` reads:
`q.id`, `q.unlockMilestone` and `q.prerequisites` (app.js lines 206-244).
The remaining fields (`name`, `group`, `trader`, `objectives`, `rewards`,
`requiredLocations`, `inOneRound`) are not consulted by the layout engine. -/
structure Quest where
  id : String
  unlockMilestone : Bool
  prerequisites : List String
deriving Repr, DecidableEq

/-- The `levels` map of `calculateLayout`: quest id to assigned level,
in insertion order. -/
abbrev Levels := List (String × Int)

/-- `levels.get(key)` on the association-list model of a JS `Map`. -/
def lookupLevel : Levels → String → Option Int
  | [], _ => none
  | (k, v) :: rest, key => if k = key then some v else lookupLevel rest key

/-- `levels.set(key, v)`: update in place if present, else append. -/
def setLevel : Levels → String → Int → Levels
  | [], key, v => [(key, v)]
  | (k, w) :: rest, key, v =>
    if k = key then (k, v) :: rest else (k, w) :: setLevel rest key v

/-- `processed.add(id)` on the list model of a JS `Set`. -/
def addProcessed (p : List String) (id : String) : List String :=
  if id ∈ p then p else p ++ [id]

/-- The mutable state `calculateLayout` threads through `assignLevel` and
the fallback sweep: the `levels` map and the `processed` set. -/
structure LayoutState where
  levels : Levels
  processed : List String
deriving Repr, DecidableEq

/-- `Math.max(m, x₁, ..., xₙ)`. -/
def intMax1 : Int → List Int → Int
  | m, [] => m
  | m, x :: xs => intMax1 (max m x) xs

/-- `Math.max(...l)` for a nonempty list `l`.  Every call site in the source
guards against the empty spread (children always have a nonempty
prerequisite list, and the sweep checks `prereqLevels.length > 0`), so the
`[]` case is unreachable and its value is immaterial. -/
def listMax : List Int → Int
  | [] => 0
  | x :: xs => intMax1 x xs

/-- The early-return guard of `assignLevel` (app.js lines 209-212):
`existing !== undefined && existing >= level`. -/
def existingGE (o : Option Int) (level : Int) : Prop :=
  match o with
  | some e => level ≤ e
  | none => False

instance (o : Option Int) (level : Int) : Decidable (existingGE o level) :=
  match o with
  | some e => inferInstanceAs (Decidable (level ≤ e))
  | none => isFalse (fun h => h)

/-- `child.prerequisites.map(p => levels.get(p)).filter(l => l !== undefined)`. -/
def resolvedLevels (lv : Levels) (prereqs : List String) : List Int :=
  prereqs.filterMap (lookupLevel lv)

/-- The `children.forEach` loop body of `assignLevel` (app.js lines 218-226),
parameterised by the recursive call `recurse` (which is `assignLevel` at the
next smaller fuel).  For each child whose prerequisites all have levels, it
recursively assigns `Math.max(...prereqLevels) + 1`. -/
def assignChildrenAux (recurse : LayoutState → Quest → Int → Option LayoutState) :
    LayoutState → List Quest → Option LayoutState
  | s, [] => some s
  | s, child :: rest =>
    let prereqLevels := resolvedLevels s.levels child.prerequisites
    if prereqLevels.length = child.prerequisites.length then
      match recurse s child (listMax prereqLevels + 1) with
      | none => none
      | some s2 => assignChildrenAux recurse s2 rest
    else
      assignChildrenAux recurse s rest

/-- `assignLevel(quest, level)` (app.js lines 208-227), fuelled.  If the quest
is already processed with an existing level `≥ level`, return unchanged;
otherwise record the level, mark processed, and recurse into every quest that
lists this one as a prerequisite and whose prerequisites are all resolved. -/
def assignLevel (quests : List Quest) : Nat → LayoutState → Quest → Int → Option LayoutState
  | 0, _, _, _ => none
  | fuel + 1, s, quest, level =>
    if quest.id ∈ s.processed ∧ existingGE (lookupLevel s.levels quest.id) level then
      some s
    else
      let s1 : LayoutState :=
        ⟨setLevel s.levels quest.id level, addProcessed s.processed quest.id⟩
      assignChildrenAux (assignLevel quests fuel) s1
        (quests.filter (fun q => decide (quest.id ∈ q.prerequisites)))

/-- `roots` (app.js line 206): quests flagged `unlockMilestone` with an empty
prerequisites list. -/
def rootsOf (quests : List Quest) : List Quest :=
  quests.filter (fun q => q.unlockMilestone && decide (q.prerequisites.length = 0))

/-- `roots.forEach(root => assignLevel(root, 0))` (app.js line 230). -/
def processRoots (quests : List Quest) (fuel : Nat) :
    LayoutState → List Quest → Option LayoutState
  | s, [] => some s
  | s, r :: rest =>
    match assignLevel quests fuel s r 0 with
    | none => none
    | some s2 => processRoots quests fuel s2 rest

/-- One `data.quests.forEach` pass of the fallback sweep (app.js lines
235-243): for each unprocessed quest whose resolved prerequisite levels are
nonempty, or whose raw prerequisite list is empty, call `assignLevel` with
`max(resolved) + 1` (resp. `0`). -/
def sweepPass (quests : List Quest) (fuel : Nat) :
    LayoutState → List Quest → Option LayoutState
  | s, [] => some s
  | s, q :: rest =>
    if q.id ∈ s.processed then
      sweepPass quests fuel s rest
    else
      let prereqLevels := resolvedLevels s.levels q.prerequisites
      if 0 < prereqLevels.length ∨ q.prerequisites.length = 0 then
        let level : Int := if 0 < prereqLevels.length then listMax prereqLevels + 1 else 0
        match assignLevel quests fuel s q level with
        | none => none
        | some s2 => sweepPass quests fuel s2 rest
      else
        sweepPass quests fuel s rest

/-- The `while (processed.size < data.quests.length && maxAttempts-- > 0)`
loop (app.js lines 233-244), with the remaining attempt count as the
recursion argument (initially 10). -/
def sweepLoop (quests : List Quest) (fuel : Nat) : Nat → LayoutState → Option LayoutState
  | 0, s => some s
  | attempts + 1, s =>
    if s.processed.length < quests.length then
      match sweepPass quests fuel s quests with
      | none => none
      | some s2 => sweepLoop quests fuel attempts s2
    else
      some s

/-- The level-assignment front half of `calculateLayout` (app.js lines
202-244): root propagation followed by the capped fallback sweep. -/
def runLevelPhases (fuel : Nat) (quests : List Quest) : Option LayoutState :=
  match processRoots quests fuel ⟨[], []⟩ (rootsOf quests) with
  | none => none
  | some s1 => sweepLoop quests fuel 10 s1

/-- `Math.max(...)` over a possibly empty argument list: `-Infinity` when
empty, used for `const maxLevel = Math.max(...levelGroups.keys())`
(app.js line 254). -/
inductive JsMax where
  | negInf : JsMax
  | val : Int → JsMax
deriving Repr, DecidableEq

/-- Fold realising `Math.max(...l)` including the empty case. -/
def jsMaxFold (l : List Int) : JsMax :=
  l.foldl (fun acc x => match acc with
    | JsMax.negInf => JsMax.val x
    | JsMax.val m => JsMax.val (max m x)) JsMax.negInf

/-- Append `id` to the group of `lvl` (creating it at the end on first use):
the `levelGroups` accumulation of app.js lines 247-251. -/
def addToGroup : List (Int × List String) → Int → String → List (Int × List String)
  | [], lvl, id => [(lvl, [id])]
  | (l, ids) :: rest, lvl, id =>
    if l = lvl then (l, ids ++ [id]) :: rest
    else (l, ids) :: addToGroup rest lvl id

/-- `levels.forEach((level, id) => ...)` grouping ids by level in the
insertion order of the `levels` map (app.js lines 247-251). -/
def buildLevelGroups (lv : Levels) : List (Int × List String) :=
  lv.foldl (fun acc kv => addToGroup acc kv.2 kv.1) []

/-- `CONFIG.nodeSpacingX` (app.js line 13). -/
def nodeSpacingX : ℚ := 160

/-- `CONFIG.nodeSpacingY` (app.js line 14). -/
def nodeSpacingY : ℚ := 80

/-- A `{x, y}` entry of `nodePositions`. -/
structure Position where
  x : ℚ
  y : ℚ
deriving Repr, DecidableEq

/-- `nodePositions.get(id)`. -/
def lookupPos : List (String × Position) → String → Option Position
  | [], _ => none
  | (k, v) :: rest, key => if k = key then some v else lookupPos rest key

/-- `nodePositions.set(id, pos)`. -/
def setPosition : List (String × Position) → String → Position → List (String × Position)
  | [], key, v => [(key, v)]
  | (k, w) :: rest, key, v =>
    if k = key then (k, v) :: rest else (k, w) :: setPosition rest key v

/-- One `levelGroups.forEach` iteration of app.js lines 256-267: place the
ids of one level evenly spaced and centred on x = 0, at `y = level ·
nodeSpacingY`. -/
def placeRow (acc : List (String × Position)) (lvl : Int) (ids : List String) :
    List (String × Position) :=
  let count : Int := ids.length
  let totalWidth : ℚ := (count - 1 : Int) * nodeSpacingX
  let startX : ℚ := -totalWidth / 2
  (ids.enum).foldl
    (fun acc2 p =>
      setPosition acc2 p.2 ⟨startX + (p.1 : ℚ) * nodeSpacingX, (lvl : ℚ) * nodeSpacingY⟩)
    acc

/-- The complete result of `calculateLayout`: the global `nodePositions` map
it fills, plus the `{maxLevel, levelGroups}` record it returns. -/
structure LayoutResult where
  nodePositions : List (String × Position)
  maxLevel : JsMax
  levelGroups : List (Int × List String)
deriving Repr, DecidableEq

/-- `calculateLayout()` (app.js lines 198-270) starting from a residual
global `nodePositions` map `prev`; the first statement of the function,
`nodePositions.clear()`, discards `prev`. -/
def calculateLayoutFrom (prev : List (String × Position)) (fuel : Nat)
    (quests : List Quest) : Option LayoutResult :=
  let _ := prev
  let cleared : List (String × Position) := []
  match runLevelPhases fuel quests with
  | none => none
  | some s2 =>
    let groups := buildLevelGroups s2.levels
    let maxLevel := jsMaxFold (groups.map Prod.fst)
    let positions := groups.foldl (fun acc g => placeRow acc g.1 g.2) cleared
    some ⟨positions, maxLevel, groups⟩

/-- `calculateLayout()` from a cleared (initial) global state. -/
def calculateLayout (fuel : Nat) (quests : List Quest) : Option LayoutResult :=
  calculateLayoutFrom [] fuel quests

/-! ### Concrete datasets used as test inputs and counterexamples -/

/-- A two-quest prerequisite cycle: A requires B and B requires A. -/
def cycleQuests : List Quest :=
  [⟨"A", false, ["B"]⟩, ⟨"B", false, ["A"]⟩]

/-- A milestone root R feeding a two-quest cycle: A requires R and B,
B requires A.  On this input the recursion of `assignLevel` climbs the
cycle forever. -/
def divergentQuests : List Quest :=
  [⟨"R", true, []⟩, ⟨"A", false, ["R", "B"]⟩, ⟨"B", false, ["A"]⟩]

/-- The layout state reached while `assignLevel` climbs the cycle of
`divergentQuests`: R at level 0, A at `a`, B at `b`, all processed. -/
def stAB (a b : Int) : LayoutState :=
  ⟨[("R", 0), ("A", a), ("B", b)], ["R", "A", "B"]⟩

/-- The spec's second scenario: a single quest X whose only prerequisite id
is absent from the dataset, with no roots at all. -/
def unknownPrereqQuests : List Quest :=
  [⟨"X", false, ["unknown"]⟩]

/-- Root r; quest q requires r, p and the unknown id u; quest p requires r
and the unknown id w.  The graph restricted to root-reachable quests
(r → q, r → p, p → q) is acyclic, yet the sweep assigns q and p the same
level 1. -/
def equalLevelQuests : List Quest :=
  [⟨"r", true, []⟩, ⟨"q", false, ["r", "p", "u"]⟩, ⟨"p", false, ["r", "w"]⟩]

/-- The spec's first scenario: milestone root R, M1 and M2 requiring R,
F requiring M1 and M2. -/
def diamondQuests : List Quest :=
  [⟨"R", true, []⟩, ⟨"M1", false, ["R"]⟩, ⟨"M2", false, ["R"]⟩, ⟨"F", false, ["M1", "M2"]⟩]

/-- The level state `runLevelPhases` reaches on `diamondQuests`. -/
def diamondState : LayoutState :=
  ⟨[("R", 0), ("M1", 1), ("M2", 1), ("F", 2)], ["R", "M1", "M2", "F"]⟩

/-- The layout `calculateLayout` returns on `diamondQuests`. -/
def diamondResult : LayoutResult :=
  ⟨[("R", ⟨0, 0⟩), ("M1", ⟨-80, 80⟩), ("M2", ⟨80, 80⟩), ("F", ⟨0, 160⟩)],
    JsMax.val 2, [(0, ["R"]), (1, ["M1", "M2"]), (2, ["F"])]⟩

/-- The level state `runLevelPhases` reaches on `equalLevelQuests`. -/
def equalLevelState : LayoutState :=
  ⟨[("r", 0), ("q", 1), ("p", 1)], ["r", "q", "p"]⟩

/-- A milestone root R plus an orphan S: no prerequisites but not flagged
as a milestone. -/
def orphanQuests : List Quest :=
  [⟨"R", true, []⟩, ⟨"S", false, []⟩]

/-- The state after the primary root propagation on `orphanQuests`. -/
def orphanState1 : LayoutState := ⟨[("R", 0)], ["R"]⟩

/-- The state after the fallback sweep on `orphanQuests`. -/
def orphanState2 : LayoutState := ⟨[("R", 0), ("S", 0)], ["R", "S"]⟩

/-! ### Predicates used to state the verified properties -/

/-- Pointwise order on optional levels: an absent entry may become any
entry, a present entry may only grow. -/
def optLE : Option Int → Option Int → Prop
  | none, _ => True
  | some _, none => False
  | some v, some w => v ≤ w

/-- The level maps of `s'` dominate those of `s` pointwise. -/
def MonoSt (s s' : LayoutState) : Prop :=
  ∀ id, optLE (lookupLevel s.levels id) (lookupLevel s'.levels id)

/-- The processed set only grows. -/
def ProcMono (s s' : LayoutState) : Prop :=
  ∀ id, id ∈ s.processed → id ∈ s'.processed

/-- The `processed` set and the key set of `levels` coincide — the code
always updates the two together (app.js lines 214-215). -/
def ProcLevelInv (s : LayoutState) : Prop :=
  ∀ id, id ∈ s.processed ↔ (lookupLevel s.levels id).isSome

/-- Full state invariant maintained by the layout computation. -/
structure StInv (quests : List Quest) (s : LayoutState) : Prop where
  procIffLevel : ProcLevelInv s
  keysNodup : (s.levels.map Prod.fst).Nodup
  procNodup : s.processed.Nodup
  procSub : ∀ id, id ∈ s.processed → id ∈ quests.map Quest.id
  nonneg : ∀ id v, lookupLevel s.levels id = some v → 0 ≤ v

/-- Every level ever stored for a quest is bounded by one plus the maximum
of its currently resolved prerequisite levels (or is 0 for a quest without
prerequisites): exactly the shapes of value the code ever writes. -/
def VOK (quests : List Quest) (lv : Levels) : Prop :=
  ∀ q ∈ quests, ∀ v, lookupLevel lv q.id = some v →
    (q.prerequisites = [] ∧ v = 0) ∨
    (resolvedLevels lv q.prerequisites ≠ [] ∧
      v ≤ listMax (resolvedLevels lv q.prerequisites) + 1)

/-- The level argument passed to `assignLevel` at every call site of the
source: 0 for a quest with no prerequisites, else one plus the maximum of
the resolved prerequisite levels, at least one being resolved. -/
def goodCall (s : LayoutState) (q : Quest) (level : Int) : Prop :=
  (q.prerequisites = [] ∧ level = 0) ∨
  (resolvedLevels s.levels q.prerequisites ≠ [] ∧
    level = listMax (resolvedLevels s.levels q.prerequisites) + 1)

/-- All prerequisites of `q` currently have levels (the completeness test
`prereqLevels.length === child.prerequisites.length` of app.js line 222). -/
def completeQ (lv : Levels) (q : Quest) : Prop :=
  (resolvedLevels lv q.prerequisites).length = q.prerequisites.length

instance (lv : Levels) (q : Quest) : Decidable (completeQ lv q) :=
  inferInstanceAs (Decidable ((resolvedLevels lv q.prerequisites).length = q.prerequisites.length))

/-- `q` has prerequisites, all of them resolved, but its own entry is not
`1 + max(prerequisite levels)` (in particular, it may be absent). -/
def badQ (lv : Levels) (q : Quest) : Prop :=
  q.prerequisites ≠ [] ∧ completeQ lv q ∧
    lookupLevel lv q.id ≠ some (listMax (resolvedLevels lv q.prerequisites) + 1)

/-- The levels of the prerequisites of `q` are the same in `lv` and `lv'`. -/
def prereqsUnchanged (lv lv' : Levels) (q : Quest) : Prop :=
  ∀ p ∈ q.prerequisites, lookupLevel lv' p = lookupLevel lv p

/-- The position `calculateLayout` computes for the i-th id (0-based) of a
level containing `n` ids (app.js lines 256-266). -/
def rowPosition (n : Nat) (lvl : Int) (i : Nat) : Position :=
  ⟨-((((n : Int) - 1 : Int) : ℚ) * nodeSpacingX) / 2 + (i : ℚ) * nodeSpacingX,
    (lvl : ℚ) * nodeSpacingY⟩

/-! ### Basic lemmas about the map and set models -/

theorem lookupLevel_setLevel_self (lv : Levels) (k : String) (v : Int) :
    lookupLevel (setLevel lv k v) k = some v := by
  induction lv with
  | nil => simp [setLevel, lookupLevel]
  | cons kv rest ih =>
    by_cases h : kv.1 = k
    · simp [setLevel, h, lookupLevel]
    · simp [setLevel, h, lookupLevel, ih]

theorem lookupLevel_setLevel_ne (lv : Levels) (k id : String) (v : Int) (h : k ≠ id) :
    lookupLevel (setLevel lv k v) id = lookupLevel lv id := by
  induction lv with
  | nil => simp [setLevel, lookupLevel, h]
  | cons kv rest ih =>
    by_cases hk : kv.1 = k
    · simp [setLevel, hk, lookupLevel, h]
    · by_cases hid : kv.1 = id
      · have h2 : ¬ id = k := Ne.symm h
        simp [setLevel, hk, lookupLevel, hid, h2]
      · simp [setLevel, hk, lookupLevel, hid, ih]

theorem lookupLevel_isSome_iff_mem (lv : Levels) (id : String) :
    (lookupLevel lv id).isSome ↔ id ∈ lv.map Prod.fst := by
  induction lv with
  | nil => simp [lookupLevel]
  | cons kv rest ih =>
    by_cases h : kv.1 = id
    · simp [lookupLevel, h]
    · simp [lookupLevel, h, ih, Ne.symm h]

theorem lookupLevel_eq_some_mem (lv : Levels) (id : String) (v : Int)
    (h : lookupLevel lv id = some v) : (id, v) ∈ lv := by
  induction lv with
  | nil => simp [lookupLevel] at h
  | cons kv rest ih =>
    by_cases hk : kv.1 = id
    · simp [lookupLevel, hk] at h
      have hkv : kv = (id, v) := by
        cases kv
        simp only [Prod.mk.injEq]
        exact ⟨hk, h⟩
      rw [hkv]
      exact List.mem_cons_self _ _
    · simp [lookupLevel, hk] at h
      exact List.mem_cons_of_mem _ (ih h)

theorem setLevel_map_fst_mem (lv : Levels) (k : String) (v : Int)
    (h : k ∈ lv.map Prod.fst) : (setLevel lv k v).map Prod.fst = lv.map Prod.fst := by
  induction lv with
  | nil => simp at h
  | cons kv rest ih =>
    by_cases hk : kv.1 = k
    · simp [setLevel, hk]
    · simp only [List.map_cons] at h
      rcases List.mem_cons.mp h with h | h
      · exact absurd h.symm hk
      · simp [setLevel, hk, ih h]

theorem setLevel_map_fst_notmem (lv : Levels) (k : String) (v : Int)
    (h : k ∉ lv.map Prod.fst) : (setLevel lv k v).map Prod.fst = lv.map Prod.fst ++ [k] := by
  induction lv with
  | nil => simp [setLevel]
  | cons kv rest ih =>
    simp only [List.map_cons, List.mem_cons] at h
    push_neg at h
    simp [setLevel, Ne.symm h.1, ih h.2]

theorem setLevel_keys_nodup (lv : Levels) (k : String) (v : Int)
    (h : (lv.map Prod.fst).Nodup) : ((setLevel lv k v).map Prod.fst).Nodup := by
  by_cases hm : k ∈ lv.map Prod.fst
  · rw [setLevel_map_fst_mem lv k v hm]; exact h
  · rw [setLevel_map_fst_notmem lv k v hm]
    rw [List.nodup_append]
    refine ⟨h, List.nodup_singleton k, ?_⟩
    intro a ha hak
    rw [List.mem_singleton] at hak
    subst hak
    exact hm ha

theorem mem_addProcessed (p : List String) (k id : String) :
    id ∈ addProcessed p k ↔ id ∈ p ∨ id = k := by
  by_cases h : k ∈ p
  · simp only [addProcessed, if_pos h]
    constructor
    · exact Or.inl
    · rintro (hm | rfl)
      · exact hm
      · exact h
  · simp [addProcessed, if_neg h]

theorem addProcessed_nodup (p : List String) (k : String) (h : p.Nodup) :
    (addProcessed p k).Nodup := by
  by_cases hm : k ∈ p
  · simpa [addProcessed, if_pos hm] using h
  · simp only [addProcessed, if_neg hm]
    rw [List.nodup_append]
    refine ⟨h, List.nodup_singleton k, ?_⟩
    intro a ha hak
    rw [List.mem_singleton] at hak
    subst hak
    exact hm ha

theorem addProcessed_length_lt (p : List String) (k : String) (h : k ∉ p) :
    p.length < (addProcessed p k).length := by
  simp [addProcessed, if_neg h]

/-! ### Lemmas about `Math.max` over lists -/

theorem le_intMax1_base (m : Int) (xs : List Int) : m ≤ intMax1 m xs := by
  induction xs generalizing m with
  | nil => simp [intMax1]
  | cons x rest ih =>
    calc m ≤ max m x := le_max_left m x
      _ ≤ intMax1 (max m x) rest := ih (max m x)
      _ = intMax1 m (x :: rest) := rfl

theorem le_intMax1_mem (m x : Int) (xs : List Int) (h : x ∈ xs) : x ≤ intMax1 m xs := by
  induction xs generalizing m with
  | nil => simp at h
  | cons y rest ih =>
    rcases List.mem_cons.mp h with rfl | hm
    · calc x ≤ max m x := le_max_right m x
        _ ≤ intMax1 (max m x) rest := le_intMax1_base _ _
    · exact ih (max m y) hm

theorem listMax_ge (l : List Int) (x : Int) (h : x ∈ l) : x ≤ listMax l := by
  cases l with
  | nil => simp at h
  | cons y rest =>
    rcases List.mem_cons.mp h with rfl | hm
    · exact le_intMax1_base x rest
    · exact le_intMax1_mem y x rest hm

theorem intMax1_mem_or (m : Int) (xs : List Int) : intMax1 m xs = m ∨ intMax1 m xs ∈ xs := by
  induction xs generalizing m with
  | nil => simp [intMax1]
  | cons x rest ih =>
    rcases ih (max m x) with h | h
    · rcases max_cases m x with ⟨hmx, _⟩ | ⟨hmx, _⟩
      · left; rw [show intMax1 m (x :: rest) = intMax1 (max m x) rest from rfl, h, hmx]
      · right
        rw [show intMax1 m (x :: rest) = intMax1 (max m x) rest from rfl, h, hmx]
        exact List.mem_cons_self x rest
    · right
      exact List.mem_cons_of_mem x h

theorem listMax_mem (l : List Int) (h : l ≠ []) : listMax l ∈ l := by
  cases l with
  | nil => exact absurd rfl h
  | cons x rest =>
    rcases intMax1_mem_or x rest with hm | hm
    · rw [show listMax (x :: rest) = intMax1 x rest from rfl, hm]
      exact List.mem_cons_self x rest
    · exact List.mem_cons_of_mem x hm

/-! ### Lemmas about resolved prerequisite levels -/

theorem mem_resolvedLevels (lv : Levels) (ps : List String) (v : Int) :
    v ∈ resolvedLevels lv ps ↔ ∃ p ∈ ps, lookupLevel lv p = some v := by
  simp [resolvedLevels, List.mem_filterMap]

theorem resolvedLevels_congr (lv lv' : Levels) (ps : List String)
    (h : ∀ p ∈ ps, lookupLevel lv' p = lookupLevel lv p) :
    resolvedLevels lv' ps = resolvedLevels lv ps := by
  simp only [resolvedLevels]
  exact List.filterMap_congr h

theorem completeQ_iff (lv : Levels) (q : Quest) :
    completeQ lv q ↔ ∀ p ∈ q.prerequisites, (lookupLevel lv p).isSome := by
  unfold completeQ resolvedLevels
  induction q.prerequisites with
  | nil => simp
  | cons p rest ih =>
    cases h : lookupLevel lv p with
    | none =>
      simp only [List.filterMap_cons, h]
      constructor
      · intro hlen
        have := List.length_filterMap_le (lookupLevel lv) rest
        simp only [List.length_cons] at hlen
        omega
      · intro hall
        have := hall p (List.mem_cons_self p rest)
        rw [h] at this
        simp at this
    | some v =>
      simp only [List.filterMap_cons, h, List.length_cons, Nat.succ.injEq]
      rw [show (List.filterMap (lookupLevel lv) rest).length = rest.length ↔
          ∀ p ∈ rest, (lookupLevel lv p).isSome from ih]
      constructor
      · intro hall p2 hp2
        rcases List.mem_cons.mp hp2 with rfl | hm
        · simp [h]
        · exact hall p2 hm
      · intro hall p2 hp2
        exact hall p2 (List.mem_cons_of_mem p hp2)

theorem resolvedLevels_mono (lv lv' : Levels) (ps : List String)
    (h : ∀ p ∈ ps, optLE (lookupLevel lv p) (lookupLevel lv' p)) :
    ∀ x ∈ resolvedLevels lv ps, ∃ y ∈ resolvedLevels lv' ps, x ≤ y := by
  intro x hx
  rcases (mem_resolvedLevels lv ps x).mp hx with ⟨p, hp, hlook⟩
  have hle := h p hp
  rw [hlook] at hle
  cases hlook2 : lookupLevel lv' p with
  | none => rw [hlook2] at hle; exact hle.elim
  | some y =>
    rw [hlook2] at hle
    exact ⟨y, (mem_resolvedLevels lv' ps y).mpr ⟨p, hp, hlook2⟩, hle⟩

theorem resolvedLevels_ne_nil_mono (lv lv' : Levels) (ps : List String)
    (h : ∀ p ∈ ps, optLE (lookupLevel lv p) (lookupLevel lv' p))
    (hne : resolvedLevels lv ps ≠ []) : resolvedLevels lv' ps ≠ [] := by
  rcases List.exists_mem_of_ne_nil _ hne with ⟨x, hx⟩
  rcases resolvedLevels_mono lv lv' ps h x hx with ⟨y, hy, _⟩
  exact List.ne_nil_of_mem hy

theorem listMax_resolved_mono (lv lv' : Levels) (ps : List String)
    (h : ∀ p ∈ ps, optLE (lookupLevel lv p) (lookupLevel lv' p))
    (hne : resolvedLevels lv ps ≠ []) :
    listMax (resolvedLevels lv ps) ≤ listMax (resolvedLevels lv' ps) := by
  rcases resolvedLevels_mono lv lv' ps h _ (listMax_mem _ hne) with ⟨y, hy, hxy⟩
  exact le_trans hxy (listMax_ge _ y hy)

theorem completeQ_mono (lv lv' : Levels) (q : Quest)
    (h : ∀ p ∈ q.prerequisites, optLE (lookupLevel lv p) (lookupLevel lv' p))
    (hc : completeQ lv q) : completeQ lv' q := by
  rw [completeQ_iff] at hc ⊢
  intro p hp
  have := h p hp
  have hs := hc p hp
  cases hl : lookupLevel lv p with
  | none => rw [hl] at hs; simp at hs
  | some v =>
    rw [hl] at this
    cases hl2 : lookupLevel lv' p with
    | none => rw [hl2] at this; exact absurd this (by simp [optLE])
    | some w => simp

/-! ### Lemmas about the option-level order -/

theorem optLE_refl (o : Option Int) : optLE o o := by
  cases o <;> simp [optLE]

theorem optLE_trans (a b c : Option Int) (h1 : optLE a b) (h2 : optLE b c) : optLE a c := by
  cases a with
  | none => trivial
  | some v =>
    cases b with
    | none => exact h1.elim
    | some w =>
      cases c with
      | none => exact h2.elim
      | some u =>
        have g1 : v ≤ w := h1
        have g2 : w ≤ u := h2
        show v ≤ u
        omega

theorem optLE_antisymm_mid (a b c : Option Int) (h1 : optLE a b) (h2 : optLE b c)
    (h : a = c) : b = a := by
  subst h
  cases a with
  | none =>
    cases b with
    | none => rfl
    | some w => exact h2.elim
  | some v =>
    cases b with
    | none => exact h1.elim
    | some w =>
      have g1 : v ≤ w := h1
      have g2 : w ≤ v := h2
      exact congrArg some (le_antisymm g2 g1)

theorem monoSt_refl (s : LayoutState) : MonoSt s s := fun _ => optLE_refl _

theorem monoSt_trans (s1 s2 s3 : LayoutState) (h1 : MonoSt s1 s2) (h2 : MonoSt s2 s3) :
    MonoSt s1 s3 := fun id => optLE_trans _ _ _ (h1 id) (h2 id)

theorem procMono_refl (s : LayoutState) : ProcMono s s := fun _ h => h

theorem procMono_trans (s1 s2 s3 : LayoutState) (h1 : ProcMono s1 s2) (h2 : ProcMono s2 s3) :
    ProcMono s1 s3 := fun id h => h2 id (h1 id h)

theorem prereqsUnchanged_split (lv1 lv2 lv3 : Levels) (q : Quest)
    (m1 : ∀ p ∈ q.prerequisites, optLE (lookupLevel lv1 p) (lookupLevel lv2 p))
    (m2 : ∀ p ∈ q.prerequisites, optLE (lookupLevel lv2 p) (lookupLevel lv3 p))
    (h : prereqsUnchanged lv1 lv3 q) :
    prereqsUnchanged lv1 lv2 q ∧ prereqsUnchanged lv2 lv3 q := by
  constructor
  · intro p hp
    exact optLE_antisymm_mid _ _ _ (m1 p hp) (m2 p hp) (h p hp).symm
  · intro p hp
    rw [optLE_antisymm_mid _ _ _ (m1 p hp) (m2 p hp) (h p hp).symm]
    exact h p hp

/-! ### The set-step of `assignLevel` (app.js lines 214-215) -/

theorem setStep_plinv (s : LayoutState) (qid : String) (lvl : Int)
    (hinv : ProcLevelInv s) :
    ProcLevelInv ⟨setLevel s.levels qid lvl, addProcessed s.processed qid⟩ := by
  intro id
  by_cases hid : id = qid
  · subst hid
    simp [mem_addProcessed, lookupLevel_setLevel_self]
  · simp only [mem_addProcessed]
    rw [show lookupLevel (setLevel s.levels qid lvl) id = lookupLevel s.levels id from
      lookupLevel_setLevel_ne _ _ _ _ (Ne.symm hid)]
    rw [show (id ∈ s.processed ∨ id = qid) ↔ id ∈ s.processed by
      constructor
      · rintro (hm | rfl)
        · exact hm
        · exact absurd rfl hid
      · exact Or.inl]
    exact hinv id

theorem setStep_mono (s : LayoutState) (qid : String) (lvl : Int)
    (hinv : ProcLevelInv s)
    (hguard : ¬(qid ∈ s.processed ∧ existingGE (lookupLevel s.levels qid) lvl)) :
    MonoSt s ⟨setLevel s.levels qid lvl, addProcessed s.processed qid⟩ ∧
    ProcMono s ⟨setLevel s.levels qid lvl, addProcessed s.processed qid⟩ := by
  constructor
  · intro id
    by_cases hid : id = qid
    · subst hid
      cases hl : lookupLevel s.levels id with
      | none => trivial
      | some e =>
        have hproc : id ∈ s.processed := (hinv id).mpr (by simp [hl])
        have hlt : ¬ existingGE (lookupLevel s.levels id) lvl := fun hge => hguard ⟨hproc, hge⟩
        rw [hl] at hlt
        have hlt2 : e < lvl := by
          by_contra hcon
          exact hlt (by show lvl ≤ e; omega)
        show optLE (some e) (lookupLevel (setLevel s.levels id lvl) id)
        rw [lookupLevel_setLevel_self]
        show e ≤ lvl
        omega
    · rw [show lookupLevel (setLevel s.levels qid lvl) id = lookupLevel s.levels id from
        lookupLevel_setLevel_ne _ _ _ _ (Ne.symm hid)]
      exact optLE_refl _
  · intro id hm
    show id ∈ addProcessed s.processed qid
    rw [mem_addProcessed]
    exact Or.inl hm

/-! ### Monotonicity of the level computation (claim: levels never regress) -/

theorem assignChildrenAux_mono
    (recurse : LayoutState → Quest → Int → Option LayoutState)
    (hrec : ∀ s q lvl s2, ProcLevelInv s → recurse s q lvl = some s2 →
      ProcLevelInv s2 ∧ MonoSt s s2 ∧ ProcMono s s2) :
    ∀ cs s s2, ProcLevelInv s → assignChildrenAux recurse s cs = some s2 →
      ProcLevelInv s2 ∧ MonoSt s s2 ∧ ProcMono s s2 := by
  intro cs
  induction cs with
  | nil =>
    intro s s2 hinv h
    obtain rfl : s = s2 := Option.some.inj h
    exact ⟨hinv, monoSt_refl _, procMono_refl _⟩
  | cons c rest ih =>
    intro s s2 hinv h
    simp only [assignChildrenAux] at h
    by_cases hc : (resolvedLevels s.levels c.prerequisites).length = c.prerequisites.length
    · rw [if_pos hc] at h
      cases hmid : recurse s c (listMax (resolvedLevels s.levels c.prerequisites) + 1) with
      | none => rw [hmid] at h; exact Option.noConfusion h
      | some smid =>
        rw [hmid] at h
        obtain ⟨hinv2, hm2, hp2⟩ := hrec s c _ smid hinv hmid
        obtain ⟨hinv3, hm3, hp3⟩ := ih smid s2 hinv2 h
        exact ⟨hinv3, monoSt_trans _ _ _ hm2 hm3, procMono_trans _ _ _ hp2 hp3⟩
    · rw [if_neg hc] at h
      exact ih s s2 hinv h

theorem assignLevel_mono (quests : List Quest) :
    ∀ fuel s q lvl s2, ProcLevelInv s → assignLevel quests fuel s q lvl = some s2 →
      ProcLevelInv s2 ∧ MonoSt s s2 ∧ ProcMono s s2 := by
  intro fuel
  induction fuel with
  | zero => intro s q lvl s2 _ h; exact Option.noConfusion h
  | succ f ih =>
    intro s q lvl s2 hinv h
    simp only [assignLevel] at h
    by_cases hguard : q.id ∈ s.processed ∧ existingGE (lookupLevel s.levels q.id) lvl
    · rw [if_pos hguard] at h
      obtain rfl : s = s2 := Option.some.inj h
      exact ⟨hinv, monoSt_refl _, procMono_refl _⟩
    · rw [if_neg hguard] at h
      have hinv1 := setStep_plinv s q.id lvl hinv
      have hmono1 := setStep_mono s q.id lvl hinv hguard
      obtain ⟨hinv2, hm2, hp2⟩ := assignChildrenAux_mono (assignLevel quests f) ih _ _ s2 hinv1 h
      exact ⟨hinv2, monoSt_trans _ _ _ hmono1.1 hm2, procMono_trans _ _ _ hmono1.2 hp2⟩

theorem processRoots_mono (quests : List Quest) (fuel : Nat) :
    ∀ rs s s2, ProcLevelInv s → processRoots quests fuel s rs = some s2 →
      ProcLevelInv s2 ∧ MonoSt s s2 ∧ ProcMono s s2 := by
  intro rs
  induction rs with
  | nil =>
    intro s s2 hinv h
    obtain rfl : s = s2 := Option.some.inj h
    exact ⟨hinv, monoSt_refl _, procMono_refl _⟩
  | cons r rest ih =>
    intro s s2 hinv h
    simp only [processRoots] at h
    cases hmid : assignLevel quests fuel s r 0 with
    | none => rw [hmid] at h; exact Option.noConfusion h
    | some smid =>
      rw [hmid] at h
      obtain ⟨hinv2, hm2, hp2⟩ := assignLevel_mono quests fuel s r 0 smid hinv hmid
      obtain ⟨hinv3, hm3, hp3⟩ := ih smid s2 hinv2 h
      exact ⟨hinv3, monoSt_trans _ _ _ hm2 hm3, procMono_trans _ _ _ hp2 hp3⟩

theorem sweepPass_mono (quests : List Quest) (fuel : Nat) :
    ∀ cs s s2, ProcLevelInv s → sweepPass quests fuel s cs = some s2 →
      ProcLevelInv s2 ∧ MonoSt s s2 ∧ ProcMono s s2 := by
  intro cs
  induction cs with
  | nil =>
    intro s s2 hinv h
    obtain rfl : s = s2 := Option.some.inj h
    exact ⟨hinv, monoSt_refl _, procMono_refl _⟩
  | cons c rest ih =>
    intro s s2 hinv h
    simp only [sweepPass] at h
    by_cases hpr : c.id ∈ s.processed
    · rw [if_pos hpr] at h
      exact ih s s2 hinv h
    · rw [if_neg hpr] at h
      by_cases hcond : 0 < (resolvedLevels s.levels c.prerequisites).length ∨
          c.prerequisites.length = 0
      · rw [if_pos hcond] at h
        cases hmid : assignLevel quests fuel s c
            (if 0 < (resolvedLevels s.levels c.prerequisites).length then
              listMax (resolvedLevels s.levels c.prerequisites) + 1 else 0) with
        | none => rw [hmid] at h; exact Option.noConfusion h
        | some smid =>
          rw [hmid] at h
          obtain ⟨hinv2, hm2, hp2⟩ := assignLevel_mono quests fuel s c _ smid hinv hmid
          obtain ⟨hinv3, hm3, hp3⟩ := ih smid s2 hinv2 h
          exact ⟨hinv3, monoSt_trans _ _ _ hm2 hm3, procMono_trans _ _ _ hp2 hp3⟩
      · rw [if_neg hcond] at h
        exact ih s s2 hinv h

theorem sweepLoop_mono (quests : List Quest) (fuel : Nat) :
    ∀ attempts s s2, ProcLevelInv s → sweepLoop quests fuel attempts s = some s2 →
      ProcLevelInv s2 ∧ MonoSt s s2 ∧ ProcMono s s2 := by
  intro attempts
  induction attempts with
  | zero =>
    intro s s2 hinv h
    obtain rfl : s = s2 := Option.some.inj h
    exact ⟨hinv, monoSt_refl _, procMono_refl _⟩
  | succ n ih =>
    intro s s2 hinv h
    simp only [sweepLoop] at h
    by_cases hcond : s.processed.length < quests.length
    · rw [if_pos hcond] at h
      cases hmid : sweepPass quests fuel s quests with
      | none => rw [hmid] at h; exact Option.noConfusion h
      | some smid =>
        rw [hmid] at h
        obtain ⟨hinv2, hm2, hp2⟩ := sweepPass_mono quests fuel quests s smid hinv hmid
        obtain ⟨hinv3, hm3, hp3⟩ := ih smid s2 hinv2 h
        exact ⟨hinv3, monoSt_trans _ _ _ hm2 hm3, procMono_trans _ _ _ hp2 hp3⟩
    · rw [if_neg hcond] at h
      obtain rfl : s = s2 := Option.some.inj h
      exact ⟨hinv, monoSt_refl _, procMono_refl _⟩

/-! ### Step lemmas for the full invariant -/

theorem existingGE_elim (o : Option Int) (lvl : Int) (h : existingGE o lvl) :
    ∃ e, o = some e ∧ lvl ≤ e := by
  cases o with
  | none => exact h.elim
  | some e => exact ⟨e, rfl, h⟩

theorem nonneg_listMax_resolved (lv : Levels) (ps : List String)
    (hn : ∀ id v, lookupLevel lv id = some v → 0 ≤ v)
    (hne : resolvedLevels lv ps ≠ []) : 0 ≤ listMax (resolvedLevels lv ps) := by
  rcases (mem_resolvedLevels lv ps _).mp (listMax_mem _ hne) with ⟨p, _, hp⟩
  exact hn p _ hp

theorem goodCall_nonneg (s : LayoutState) (q : Quest) (lvl : Int)
    (hn : ∀ id v, lookupLevel s.levels id = some v → 0 ≤ v)
    (hgood : goodCall s q lvl) : 0 ≤ lvl := by
  rcases hgood with ⟨_, rfl⟩ | ⟨hne, rfl⟩
  · exact le_refl 0
  · have := nonneg_listMax_resolved s.levels q.prerequisites hn hne
    omega

theorem setStep_stinv (quests : List Quest) (s : LayoutState) (q : Quest) (lvl : Int)
    (hinv : StInv quests s) (hq : q ∈ quests) (hgood : goodCall s q lvl) :
    StInv quests ⟨setLevel s.levels q.id lvl, addProcessed s.processed q.id⟩ := by
  refine ⟨setStep_plinv s q.id lvl hinv.procIffLevel,
    setLevel_keys_nodup _ _ _ hinv.keysNodup,
    addProcessed_nodup _ _ hinv.procNodup, ?_, ?_⟩
  · intro id hm
    rcases (mem_addProcessed _ _ _).mp hm with hm | rfl
    · exact hinv.procSub id hm
    · exact List.mem_map_of_mem Quest.id hq
  · intro id v hv
    by_cases hid : id = q.id
    · subst hid
      rw [lookupLevel_setLevel_self] at hv
      obtain rfl : lvl = v := Option.some.inj hv
      exact goodCall_nonneg s q lvl hinv.nonneg hgood
    · rw [lookupLevel_setLevel_ne _ _ _ _ (fun he => hid he.symm)] at hv
      exact hinv.nonneg id v hv

theorem setStep_vok (quests : List Quest) (s : LayoutState) (q : Quest) (lvl : Int)
    (hids : (quests.map Quest.id).Nodup)
    (hinv : StInv quests s) (hvok : VOK quests s.levels) (hq : q ∈ quests)
    (hgood : goodCall s q lvl)
    (hguard : ¬(q.id ∈ s.processed ∧ existingGE (lookupLevel s.levels q.id) lvl)) :
    VOK quests (setLevel s.levels q.id lvl) := by
  have hmono : ∀ id, optLE (lookupLevel s.levels id) (lookupLevel (setLevel s.levels q.id lvl) id) :=
    (setStep_mono s q.id lvl hinv.procIffLevel hguard).1
  intro c hc v hv
  by_cases hcid : c.id = q.id
  · have hcq : c = q := List.inj_on_of_nodup_map hids hc hq hcid
    subst hcq
    rw [hcid, lookupLevel_setLevel_self] at hv
    obtain rfl : lvl = v := Option.some.inj hv
    rcases hgood with ⟨hpe, rfl⟩ | ⟨hne, rfl⟩
    · exact Or.inl ⟨hpe, rfl⟩
    · refine Or.inr ⟨?_, ?_⟩
      · exact resolvedLevels_ne_nil_mono _ _ _ (fun p _ => hmono p) hne
      · have := listMax_resolved_mono s.levels _ c.prerequisites (fun p _ => hmono p) hne
        omega
  · rw [lookupLevel_setLevel_ne _ _ _ _ (fun he => hcid he.symm)] at hv
    rcases hvok c hc v hv with ⟨hpe, h0⟩ | ⟨hne, hle⟩
    · exact Or.inl ⟨hpe, h0⟩
    · refine Or.inr ⟨?_, ?_⟩
      · exact resolvedLevels_ne_nil_mono _ _ _ (fun p _ => hmono p) hne
      · have := listMax_resolved_mono s.levels _ c.prerequisites (fun p _ => hmono p) hne
        omega

theorem setStep_bad_cases (quests : List Quest) (s : LayoutState) (q : Quest) (lvl : Int)
    (hids : (quests.map Quest.id).Nodup) (hq : q ∈ quests) :
    ∀ c ∈ quests, badQ (setLevel s.levels q.id lvl) c →
      q.id ∈ c.prerequisites ∨ c = q ∨
        (badQ s.levels c ∧ prereqsUnchanged s.levels (setLevel s.levels q.id lvl) c) := by
  intro c hc hbad
  by_cases hqp : q.id ∈ c.prerequisites
  · exact Or.inl hqp
  · by_cases hcid : c.id = q.id
    · exact Or.inr (Or.inl (List.inj_on_of_nodup_map hids hc hq hcid))
    · refine Or.inr (Or.inr ?_)
      have hunch : prereqsUnchanged s.levels (setLevel s.levels q.id lvl) c := by
        intro p hp
        have hpne : q.id ≠ p := fun he => hqp (he ▸ hp)
        exact lookupLevel_setLevel_ne _ _ _ _ hpne
      obtain ⟨hne, hcomp, hneq⟩ := hbad
      have hres : resolvedLevels (setLevel s.levels q.id lvl) c.prerequisites =
          resolvedLevels s.levels c.prerequisites := resolvedLevels_congr _ _ _ hunch
      refine ⟨⟨hne, ?_, ?_⟩, hunch⟩
      · unfold completeQ at hcomp ⊢
        rw [hres] at hcomp
        exact hcomp
      · rw [lookupLevel_setLevel_ne _ _ _ _ (fun he => hcid he.symm), hres] at hneq
        exact hneq

theorem setStep_notbad_self (s : LayoutState) (q : Quest) (lvl : Int)
    (hgood : goodCall s q lvl) (hns : q.id ∉ q.prerequisites) :
    ¬ badQ (setLevel s.levels q.id lvl) q := by
  rintro ⟨hne, _, hneq⟩
  have hunch : prereqsUnchanged s.levels (setLevel s.levels q.id lvl) q := by
    intro p hp
    have hpne : q.id ≠ p := fun he => hns (he ▸ hp)
    exact lookupLevel_setLevel_ne _ _ _ _ hpne
  have hres : resolvedLevels (setLevel s.levels q.id lvl) q.prerequisites =
      resolvedLevels s.levels q.prerequisites := resolvedLevels_congr _ _ _ hunch
  rcases hgood with ⟨hpe, _⟩ | ⟨_, rfl⟩
  · exact hne hpe
  · rw [lookupLevel_setLevel_self, hres] at hneq
    exact hneq rfl

theorem guard_notbad (quests : List Quest) (s : LayoutState) (q : Quest) (lvl : Int)
    (hvok : VOK quests s.levels) (hq : q ∈ quests) (hgood : goodCall s q lvl)
    (hguard : q.id ∈ s.processed ∧ existingGE (lookupLevel s.levels q.id) lvl) :
    ¬ badQ s.levels q := by
  rintro ⟨hne, _, hneq⟩
  rcases existingGE_elim _ _ hguard.2 with ⟨e, hlook, hle⟩
  rcases hvok q hq e hlook with ⟨hpe, _⟩ | ⟨_, hble⟩
  · exact hne hpe
  · rcases hgood with ⟨hpe, _⟩ | ⟨_, rfl⟩
    · exact hne hpe
    · have he : e = listMax (resolvedLevels s.levels q.prerequisites) + 1 := by omega
      rw [hlook, he] at hneq
      exact hneq rfl

theorem stinv_init (quests : List Quest) : StInv quests ⟨[], []⟩ := by
  refine ⟨fun id => ?_, ?_, ?_, ?_, ?_⟩
  · simp [lookupLevel]
  · simp
  · simp
  · intro id h
    simp at h
  · intro id v h
    simp [lookupLevel] at h

theorem vok_init (quests : List Quest) : VOK quests [] := by
  intro q _ v h
  simp [lookupLevel] at h

theorem notbad_init (c : Quest) : ¬ badQ [] c := by
  rintro ⟨hne, hcomp, _⟩
  unfold completeQ resolvedLevels at hcomp
  have : ∀ p ∈ c.prerequisites, lookupLevel [] p = none := fun p _ => rfl
  rw [List.filterMap_congr (by intro p hp; rw [this p hp] : ∀ p ∈ c.prerequisites,
    lookupLevel [] p = (fun _ => (none : Option Int)) p)] at hcomp
  simp at hcomp
  exact hne (List.eq_nil_iff_forall_not_mem.mpr hcomp)

/-! ### The master invariant of the recursive propagation -/

theorem assignChildrenAux_master (quests : List Quest)
    (_hids : (quests.map Quest.id).Nodup)
    (recurse : LayoutState → Quest → Int → Option LayoutState)
    (hrec : ∀ s q lvl s2, StInv quests s → VOK quests s.levels → q ∈ quests →
      goodCall s q lvl → recurse s q lvl = some s2 →
      StInv quests s2 ∧ VOK quests s2.levels ∧
      (∀ c ∈ quests, badQ s2.levels c →
        badQ s.levels c ∧ prereqsUnchanged s.levels s2.levels c) ∧
      ¬ badQ s2.levels q)
    (hrecmono : ∀ s q lvl s2, ProcLevelInv s → recurse s q lvl = some s2 →
      ProcLevelInv s2 ∧ MonoSt s s2 ∧ ProcMono s s2) :
    ∀ cs s s2, StInv quests s → VOK quests s.levels →
      (∀ c ∈ cs, c ∈ quests ∧ c.prerequisites ≠ []) →
      assignChildrenAux recurse s cs = some s2 →
      StInv quests s2 ∧ VOK quests s2.levels ∧
      (∀ c ∈ quests, badQ s2.levels c →
        badQ s.levels c ∧ prereqsUnchanged s.levels s2.levels c) ∧
      (∀ c ∈ cs, prereqsUnchanged s.levels s2.levels c → ¬ badQ s2.levels c) := by
  intro cs
  induction cs with
  | nil =>
    intro s s2 hinv hvok _ h
    obtain rfl : s = s2 := Option.some.inj h
    exact ⟨hinv, hvok, fun c _ hb => ⟨hb, fun p _ => rfl⟩, fun c hc => absurd hc (by simp)⟩
  | cons c rest ih =>
    intro s s2 hinv hvok hcs h
    obtain ⟨⟨hcq, hcne⟩, hrest⟩ :
        (c ∈ quests ∧ c.prerequisites ≠ []) ∧ ∀ d ∈ rest, d ∈ quests ∧ d.prerequisites ≠ [] :=
      ⟨hcs c (List.mem_cons_self c rest), fun d hd => hcs d (List.mem_cons_of_mem c hd)⟩
    simp only [assignChildrenAux] at h
    by_cases hcpl : (resolvedLevels s.levels c.prerequisites).length = c.prerequisites.length
    · rw [if_pos hcpl] at h
      cases hmid : recurse s c (listMax (resolvedLevels s.levels c.prerequisites) + 1) with
      | none => rw [hmid] at h; exact Option.noConfusion h
      | some smid =>
        rw [hmid] at h
        have hgood : goodCall s c (listMax (resolvedLevels s.levels c.prerequisites) + 1) := by
          refine Or.inr ⟨?_, rfl⟩
          intro hnil
          rw [hnil] at hcpl
          simp at hcpl
          exact hcne (List.length_eq_zero.mp hcpl.symm)
        obtain ⟨hinv1, hvok1, hcontract1, hnotbad1⟩ :=
          hrec s c _ smid hinv hvok hcq hgood hmid
        obtain ⟨hinv2, hvok2, hcontract2, hpost2⟩ := ih smid s2 hinv1 hvok1 hrest h
        have hm1 : MonoSt s smid := (hrecmono s c _ smid hinv.procIffLevel hmid).2.1
        have hm2 : MonoSt smid s2 :=
          (assignChildrenAux_mono recurse hrecmono rest smid s2 hinv1.procIffLevel h).2.1
        refine ⟨hinv2, hvok2, ?_, ?_⟩
        · intro d hd hbad
          obtain ⟨hbmid, humid⟩ := hcontract2 d hd hbad
          obtain ⟨hbs, hus⟩ := hcontract1 d hd hbmid
          exact ⟨hbs, fun p hp => (humid p hp).trans (hus p hp)⟩
        · intro d hd hunch
          rcases List.mem_cons.mp hd with rfl | hdm
          · intro hbad
            exact hnotbad1 (hcontract2 d hcq hbad).1
          · obtain ⟨_, hu2⟩ := prereqsUnchanged_split s.levels smid.levels s2.levels d
              (fun p _ => hm1 p) (fun p _ => hm2 p) hunch
            exact hpost2 d hdm hu2
    · rw [if_neg hcpl] at h
      obtain ⟨hinv2, hvok2, hcontract2, hpost2⟩ := ih s s2 hinv hvok hrest h
      refine ⟨hinv2, hvok2, hcontract2, ?_⟩
      intro d hd hunch
      rcases List.mem_cons.mp hd with rfl | hdm
      · rintro ⟨_, hcomp, _⟩
        have hres : resolvedLevels s2.levels d.prerequisites =
            resolvedLevels s.levels d.prerequisites := resolvedLevels_congr _ _ _ hunch
        unfold completeQ at hcomp
        rw [hres] at hcomp
        exact hcpl hcomp
      · exact hpost2 d hdm hunch

theorem assignLevel_master (quests : List Quest) (hids : (quests.map Quest.id).Nodup) :
    ∀ fuel s q lvl s2, StInv quests s → VOK quests s.levels → q ∈ quests →
      goodCall s q lvl → assignLevel quests fuel s q lvl = some s2 →
      StInv quests s2 ∧ VOK quests s2.levels ∧
      (∀ c ∈ quests, badQ s2.levels c →
        badQ s.levels c ∧ prereqsUnchanged s.levels s2.levels c) ∧
      ¬ badQ s2.levels q := by
  intro fuel
  induction fuel with
  | zero => intro s q lvl s2 _ _ _ _ h; exact Option.noConfusion h
  | succ f ih =>
    intro s q lvl s2 hinv hvok hq hgood h
    simp only [assignLevel] at h
    by_cases hguard : q.id ∈ s.processed ∧ existingGE (lookupLevel s.levels q.id) lvl
    · rw [if_pos hguard] at h
      obtain rfl : s = s2 := Option.some.inj h
      exact ⟨hinv, hvok, fun c _ hb => ⟨hb, fun p _ => rfl⟩,
        guard_notbad quests s q lvl hvok hq hgood hguard⟩
    · rw [if_neg hguard] at h
      have hinv1 := setStep_stinv quests s q lvl hinv hq hgood
      have hvok1 := setStep_vok quests s q lvl hids hinv hvok hq hgood hguard
      have hch : ∀ c ∈ quests.filter (fun c => decide (q.id ∈ c.prerequisites)),
          c ∈ quests ∧ c.prerequisites ≠ [] := by
        intro c hc
        rw [List.mem_filter] at hc
        exact ⟨hc.1, List.ne_nil_of_mem (of_decide_eq_true hc.2)⟩
      obtain ⟨hinv2, hvok2, hcontract, hpost3⟩ :=
        assignChildrenAux_master quests hids (assignLevel quests f) ih
          (assignLevel_mono quests f) _ _ s2 hinv1 hvok1 hch h
      have hunchs1 : ∀ d, badQ s2.levels d → d ∈ quests →
          badQ (setLevel s.levels q.id lvl) d ∧
          prereqsUnchanged (setLevel s.levels q.id lvl) s2.levels d := by
        intro d hbad hd
        exact hcontract d hd hbad
      have hnotbad : ¬ badQ s2.levels q := by
        intro hbad
        obtain ⟨hbad1, hunch1⟩ := hunchs1 q hbad hq
        by_cases hsd : q.id ∈ q.prerequisites
        · have hqmem : q ∈ quests.filter (fun c => decide (q.id ∈ c.prerequisites)) := by
            rw [List.mem_filter]
            exact ⟨hq, decide_eq_true hsd⟩
          exact hpost3 q hqmem hunch1 hbad
        · exact setStep_notbad_self s q lvl hgood hsd hbad1
      refine ⟨hinv2, hvok2, ?_, hnotbad⟩
      intro c hc hbad
      obtain ⟨hbad1, hunch1⟩ := hunchs1 c hbad hc
      rcases setStep_bad_cases quests s q lvl hids hq c hc hbad1 with hqp | rfl | ⟨hbs, hus⟩
      · have hcmem : c ∈ quests.filter (fun d => decide (q.id ∈ d.prerequisites)) := by
          rw [List.mem_filter]
          exact ⟨hc, decide_eq_true hqp⟩
        exact absurd hbad (hpost3 c hcmem hunch1)
      · exact absurd hbad hnotbad
      · exact ⟨hbs, fun p hp => (hunch1 p hp).trans (hus p hp)⟩

/-! ### Phase-level invariant preservation -/

theorem processRoots_master (quests : List Quest) (hids : (quests.map Quest.id).Nodup)
    (fuel : Nat) :
    ∀ rs s s2, StInv quests s → VOK quests s.levels →
      (∀ r ∈ rs, r ∈ quests ∧ r.prerequisites = []) →
      processRoots quests fuel s rs = some s2 →
      StInv quests s2 ∧ VOK quests s2.levels ∧
      (∀ c ∈ quests, badQ s2.levels c → badQ s.levels c) := by
  intro rs
  induction rs with
  | nil =>
    intro s s2 hinv hvok _ h
    obtain rfl : s = s2 := Option.some.inj h
    exact ⟨hinv, hvok, fun c _ hb => hb⟩
  | cons r rest ih =>
    intro s s2 hinv hvok hrs h
    obtain ⟨⟨hrq, hre⟩, hrest⟩ :
        (r ∈ quests ∧ r.prerequisites = []) ∧ ∀ d ∈ rest, d ∈ quests ∧ d.prerequisites = [] :=
      ⟨hrs r (List.mem_cons_self r rest), fun d hd => hrs d (List.mem_cons_of_mem r hd)⟩
    simp only [processRoots] at h
    cases hmid : assignLevel quests fuel s r 0 with
    | none => rw [hmid] at h; exact Option.noConfusion h
    | some smid =>
      rw [hmid] at h
      obtain ⟨hinv1, hvok1, hcontract1, _⟩ :=
        assignLevel_master quests hids fuel s r 0 smid hinv hvok hrq (Or.inl ⟨hre, rfl⟩) hmid
      obtain ⟨hinv2, hvok2, hcontract2⟩ := ih smid s2 hinv1 hvok1 hrest h
      exact ⟨hinv2, hvok2, fun c hc hb => (hcontract1 c hc (hcontract2 c hc hb)).1⟩

theorem sweepPass_master (quests : List Quest) (hids : (quests.map Quest.id).Nodup)
    (fuel : Nat) :
    ∀ cs s s2, StInv quests s → VOK quests s.levels →
      (∀ c ∈ cs, c ∈ quests) →
      sweepPass quests fuel s cs = some s2 →
      StInv quests s2 ∧ VOK quests s2.levels ∧
      (∀ c ∈ quests, badQ s2.levels c → badQ s.levels c) := by
  intro cs
  induction cs with
  | nil =>
    intro s s2 hinv hvok _ h
    obtain rfl : s = s2 := Option.some.inj h
    exact ⟨hinv, hvok, fun c _ hb => hb⟩
  | cons c rest ih =>
    intro s s2 hinv hvok hcs h
    have hcq : c ∈ quests := hcs c (List.mem_cons_self c rest)
    have hrest : ∀ d ∈ rest, d ∈ quests := fun d hd => hcs d (List.mem_cons_of_mem c hd)
    simp only [sweepPass] at h
    by_cases hpr : c.id ∈ s.processed
    · rw [if_pos hpr] at h
      exact ih s s2 hinv hvok hrest h
    · rw [if_neg hpr] at h
      by_cases hcond : 0 < (resolvedLevels s.levels c.prerequisites).length ∨
          c.prerequisites.length = 0
      · rw [if_pos hcond] at h
        have hgood : goodCall s c
            (if 0 < (resolvedLevels s.levels c.prerequisites).length then
              listMax (resolvedLevels s.levels c.prerequisites) + 1 else 0) := by
          by_cases hlen : 0 < (resolvedLevels s.levels c.prerequisites).length
          · rw [if_pos hlen]
            exact Or.inr ⟨List.ne_nil_of_length_pos hlen, rfl⟩
          · rw [if_neg hlen]
            rcases hcond with hcond | hcond
            · exact absurd hcond hlen
            · exact Or.inl ⟨List.length_eq_zero.mp hcond, rfl⟩
        cases hmid : assignLevel quests fuel s c
            (if 0 < (resolvedLevels s.levels c.prerequisites).length then
              listMax (resolvedLevels s.levels c.prerequisites) + 1 else 0) with
        | none => rw [hmid] at h; exact Option.noConfusion h
        | some smid =>
          rw [hmid] at h
          obtain ⟨hinv1, hvok1, hcontract1, _⟩ :=
            assignLevel_master quests hids fuel s c _ smid hinv hvok hcq hgood hmid
          obtain ⟨hinv2, hvok2, hcontract2⟩ := ih smid s2 hinv1 hvok1 hrest h
          exact ⟨hinv2, hvok2, fun d hd hb => (hcontract1 d hd (hcontract2 d hd hb)).1⟩
      · rw [if_neg hcond] at h
        exact ih s s2 hinv hvok hrest h

theorem sweepLoop_master (quests : List Quest) (hids : (quests.map Quest.id).Nodup)
    (fuel : Nat) :
    ∀ attempts s s2, StInv quests s → VOK quests s.levels →
      sweepLoop quests fuel attempts s = some s2 →
      StInv quests s2 ∧ VOK quests s2.levels ∧
      (∀ c ∈ quests, badQ s2.levels c → badQ s.levels c) := by
  intro attempts
  induction attempts with
  | zero =>
    intro s s2 hinv hvok h
    obtain rfl : s = s2 := Option.some.inj h
    exact ⟨hinv, hvok, fun c _ hb => hb⟩
  | succ n ih =>
    intro s s2 hinv hvok h
    simp only [sweepLoop] at h
    by_cases hcond : s.processed.length < quests.length
    · rw [if_pos hcond] at h
      cases hmid : sweepPass quests fuel s quests with
      | none => rw [hmid] at h; exact Option.noConfusion h
      | some smid =>
        rw [hmid] at h
        obtain ⟨hinv1, hvok1, hcontract1⟩ :=
          sweepPass_master quests hids fuel quests s smid hinv hvok (fun c hc => hc) hmid
        obtain ⟨hinv2, hvok2, hcontract2⟩ := ih smid s2 hinv1 hvok1 h
        exact ⟨hinv2, hvok2, fun c hc hb => hcontract1 c hc (hcontract2 c hc hb)⟩
    · rw [if_neg hcond] at h
      obtain rfl : s = s2 := Option.some.inj h
      exact ⟨hinv, hvok, fun c _ hb => hb⟩

theorem runLevelPhases_master (quests : List Quest) (hids : (quests.map Quest.id).Nodup)
    (fuel : Nat) (s2 : LayoutState) (h : runLevelPhases fuel quests = some s2) :
    StInv quests s2 ∧ VOK quests s2.levels ∧ ∀ c ∈ quests, ¬ badQ s2.levels c := by
  unfold runLevelPhases at h
  cases hmid : processRoots quests fuel ⟨[], []⟩ (rootsOf quests) with
  | none => rw [hmid] at h; exact Option.noConfusion h
  | some s1 =>
    rw [hmid] at h
    have hroots : ∀ r ∈ rootsOf quests, r ∈ quests ∧ r.prerequisites = [] := by
      intro r hr
      rw [rootsOf, List.mem_filter] at hr
      have hb := hr.2
      rw [Bool.and_eq_true] at hb
      exact ⟨hr.1, List.length_eq_zero.mp (of_decide_eq_true hb.2)⟩
    obtain ⟨hinv1, hvok1, hcontract1⟩ :=
      processRoots_master quests hids fuel (rootsOf quests) ⟨[], []⟩ s1
        (stinv_init quests) (vok_init quests) hroots hmid
    obtain ⟨hinv2, hvok2, hcontract2⟩ :=
      sweepLoop_master quests hids fuel 10 s1 s2 hinv1 hvok1 h
    refine ⟨hinv2, hvok2, fun c hc hb => ?_⟩
    exact notbad_init c (hcontract1 c hc (hcontract2 c hc hb))

/-! ### Lemmas about the position map -/

theorem lookupPos_setPosition_self (ps : List (String × Position)) (k : String) (v : Position) :
    lookupPos (setPosition ps k v) k = some v := by
  induction ps with
  | nil => simp [setPosition, lookupPos]
  | cons kv rest ih =>
    by_cases h : kv.1 = k
    · simp [setPosition, h, lookupPos]
    · simp [setPosition, h, lookupPos, ih]

theorem lookupPos_setPosition_ne (ps : List (String × Position)) (k id : String) (v : Position)
    (h : k ≠ id) : lookupPos (setPosition ps k v) id = lookupPos ps id := by
  induction ps with
  | nil => simp [setPosition, lookupPos, h]
  | cons kv rest ih =>
    by_cases hk : kv.1 = k
    · simp [setPosition, hk, lookupPos, h]
    · by_cases hid : kv.1 = id
      · have h2 : ¬ id = k := Ne.symm h
        simp [setPosition, hk, lookupPos, hid, h2]
      · simp [setPosition, hk, lookupPos, hid, ih]

theorem lookupPos_isSome_iff_mem (ps : List (String × Position)) (id : String) :
    (lookupPos ps id).isSome ↔ id ∈ ps.map Prod.fst := by
  induction ps with
  | nil => simp [lookupPos]
  | cons kv rest ih =>
    by_cases h : kv.1 = id
    · simp [lookupPos, h]
    · simp [lookupPos, h, ih, Ne.symm h]

theorem setPosition_keys_notmem (ps : List (String × Position)) (k : String) (v : Position)
    (h : k ∉ ps.map Prod.fst) :
    (setPosition ps k v).map Prod.fst = ps.map Prod.fst ++ [k] := by
  induction ps with
  | nil => simp [setPosition]
  | cons kv rest ih =>
    simp only [List.map_cons, List.mem_cons] at h
    push_neg at h
    simp [setPosition, Ne.symm h.1, ih h.2]

/-! ### The per-row placement fold -/

theorem placeRow_foldCore_notmem (lvl : Int) (n : Nat) :
    ∀ (ids : List String) (k : Nat) (acc : List (String × Position)) (id : String),
      id ∉ ids →
      lookupPos ((List.enumFrom k ids).foldl
        (fun acc2 p => setPosition acc2 p.2
          ⟨-((((n : Int) - 1 : Int) : ℚ) * nodeSpacingX) / 2 + (p.1 : ℚ) * nodeSpacingX,
            (lvl : ℚ) * nodeSpacingY⟩) acc) id = lookupPos acc id := by
  intro ids
  induction ids with
  | nil => intro k acc id _; rfl
  | cons id0 rest ih =>
    intro k acc id hid
    simp only [List.mem_cons] at hid
    push_neg at hid
    show lookupPos ((List.enumFrom (k+1) rest).foldl _ (setPosition acc id0 _)) id = _
    rw [ih (k+1) _ id hid.2]
    exact lookupPos_setPosition_ne _ _ _ _ (Ne.symm hid.1)

theorem placeRow_foldCore_get (lvl : Int) (n : Nat) :
    ∀ (ids : List String) (k : Nat) (acc : List (String × Position)),
      ids.Nodup → ∀ i (hi : i < ids.length),
      lookupPos ((List.enumFrom k ids).foldl
        (fun acc2 p => setPosition acc2 p.2
          ⟨-((((n : Int) - 1 : Int) : ℚ) * nodeSpacingX) / 2 + (p.1 : ℚ) * nodeSpacingX,
            (lvl : ℚ) * nodeSpacingY⟩) acc) (ids.get ⟨i, hi⟩) =
      some ⟨-((((n : Int) - 1 : Int) : ℚ) * nodeSpacingX) / 2 + ((k + i : Nat) : ℚ) * nodeSpacingX,
        (lvl : ℚ) * nodeSpacingY⟩ := by
  intro ids
  induction ids with
  | nil => intro k acc _ i hi; exact absurd hi (by simp)
  | cons id0 rest ih =>
    intro k acc hnd i hi
    rw [List.nodup_cons] at hnd
    cases i with
    | zero =>
      show lookupPos ((List.enumFrom (k+1) rest).foldl _ (setPosition acc id0 _)) id0 = _
      rw [placeRow_foldCore_notmem lvl n rest (k+1) _ id0 hnd.1]
      rw [lookupPos_setPosition_self]
      norm_num
    | succ j =>
      have hj : j < rest.length := by
        simp only [List.length_cons] at hi
        omega
      show lookupPos ((List.enumFrom (k+1) rest).foldl _ (setPosition acc id0 _))
        (rest.get ⟨j, hj⟩) = _
      rw [ih (k+1) _ hnd.2 j hj]
      have : ((k + 1 + j : Nat) : ℚ) = ((k + (j+1) : Nat) : ℚ) := by
        push_cast
        ring
      rw [this]

theorem placeRow_lookup_notmem (acc : List (String × Position)) (lvl : Int)
    (ids : List String) (id : String) (h : id ∉ ids) :
    lookupPos (placeRow acc lvl ids) id = lookupPos acc id := by
  unfold placeRow
  rw [show ids.enum = List.enumFrom 0 ids from rfl]
  exact placeRow_foldCore_notmem lvl ids.length ids 0 acc id h

theorem placeRow_lookup_get (acc : List (String × Position)) (lvl : Int)
    (ids : List String) (hnd : ids.Nodup) (i : Nat) (hi : i < ids.length) :
    lookupPos (placeRow acc lvl ids) (ids.get ⟨i, hi⟩) =
      some (rowPosition ids.length lvl i) := by
  unfold placeRow rowPosition
  rw [show ids.enum = List.enumFrom 0 ids from rfl]
  rw [placeRow_foldCore_get lvl ids.length ids 0 acc hnd i hi]
  norm_num

theorem foldSetPosition_keys (f : Nat × String → Position) :
    ∀ (ps : List (Nat × String)) (acc : List (String × Position)),
      (ps.map Prod.snd).Nodup → (∀ pr ∈ ps, pr.2 ∉ acc.map Prod.fst) →
      ((ps.foldl (fun acc2 p => setPosition acc2 p.2 (f p)) acc).map Prod.fst) =
        acc.map Prod.fst ++ ps.map Prod.snd := by
  intro ps
  induction ps with
  | nil => intro acc _ _; simp
  | cons p rest ih =>
    intro acc hnd hfresh
    simp only [List.map_cons, List.nodup_cons] at hnd
    show ((rest.foldl _ (setPosition acc p.2 (f p))).map Prod.fst) = _
    rw [ih (setPosition acc p.2 (f p)) hnd.2 ?_]
    · rw [setPosition_keys_notmem acc p.2 (f p) (hfresh p (List.mem_cons_self p rest))]
      simp
    · intro pr hpr
      rw [setPosition_keys_notmem acc p.2 (f p) (hfresh p (List.mem_cons_self p rest))]
      rw [List.mem_append, List.mem_singleton]
      push_neg
      refine ⟨hfresh pr (List.mem_cons_of_mem p hpr), ?_⟩
      intro heq
      exact hnd.1 (heq ▸ List.mem_map_of_mem Prod.snd hpr)

theorem enumFrom_map_snd_eq (k : Nat) (l : List String) :
    (List.enumFrom k l).map Prod.snd = l := by
  induction l generalizing k with
  | nil => rfl
  | cons x rest ih => simp [List.enumFrom, ih]

theorem placeRow_keys (acc : List (String × Position)) (lvl : Int) (ids : List String)
    (hnd : ids.Nodup) (hfresh : ∀ id ∈ ids, id ∉ acc.map Prod.fst) :
    (placeRow acc lvl ids).map Prod.fst = acc.map Prod.fst ++ ids := by
  unfold placeRow
  rw [show ids.enum = List.enumFrom 0 ids from rfl]
  rw [foldSetPosition_keys _ (List.enumFrom 0 ids) acc
    (by rw [enumFrom_map_snd_eq]; exact hnd)
    (by intro pr hpr
        have : pr.2 ∈ ids := by
          rw [← enumFrom_map_snd_eq 0 ids]
          exact List.mem_map_of_mem Prod.snd hpr
        exact hfresh pr.2 this)]
  rw [enumFrom_map_snd_eq]

/-! ### Lemmas about the grouping of levels -/

theorem addToGroup_flat_perm (acc : List (Int × List String)) (lvl : Int) (id : String) :
    List.Perm ((addToGroup acc lvl id).flatMap (fun g => g.2))
      (acc.flatMap (fun g => g.2) ++ [id]) := by
  induction acc with
  | nil => simp [addToGroup]
  | cons g rest ih =>
    by_cases h : g.1 = lvl
    · simp only [addToGroup, if_pos h, List.flatMap_cons]
      rw [List.append_assoc, List.append_assoc]
      refine List.Perm.append_left g.2 ?_
      exact List.perm_append_comm
    · simp only [addToGroup, if_neg h, List.flatMap_cons]
      rw [List.append_assoc]
      exact List.Perm.append_left g.2 ih

theorem buildLevelGroups_fold_perm (lv : Levels) :
    ∀ acc : List (Int × List String),
      List.Perm ((lv.foldl (fun a kv => addToGroup a kv.2 kv.1) acc).flatMap (fun g => g.2))
        (acc.flatMap (fun g => g.2) ++ lv.map Prod.fst) := by
  induction lv with
  | nil => intro acc; simp
  | cons kv rest ih =>
    intro acc
    show List.Perm ((rest.foldl _ (addToGroup acc kv.2 kv.1)).flatMap _) _
    refine (ih (addToGroup acc kv.2 kv.1)).trans ?_
    rw [List.map_cons]
    refine (List.Perm.append_right (rest.map Prod.fst)
      (addToGroup_flat_perm acc kv.2 kv.1)).trans ?_
    rw [List.append_assoc]
    refine List.Perm.append_left _ ?_
    exact (List.perm_append_comm).trans (by simp)

theorem buildLevelGroups_flat_perm (lv : Levels) :
    List.Perm ((buildLevelGroups lv).flatMap (fun g => g.2)) (lv.map Prod.fst) := by
  have := buildLevelGroups_fold_perm lv []
  simpa [buildLevelGroups] using this

theorem addToGroup_keys (acc : List (Int × List String)) (lvl : Int) (id : String) :
    (addToGroup acc lvl id).map Prod.fst =
      if lvl ∈ acc.map Prod.fst then acc.map Prod.fst else acc.map Prod.fst ++ [lvl] := by
  induction acc with
  | nil => simp [addToGroup]
  | cons g rest ih =>
    by_cases h : g.1 = lvl
    · simp [addToGroup, h]
    · simp only [addToGroup, if_neg h, List.map_cons, ih]
      by_cases hm : lvl ∈ rest.map Prod.fst
      · simp [hm, Ne.symm h]
      · simp [hm, Ne.symm h]

theorem addToGroup_keys_nodup (acc : List (Int × List String)) (lvl : Int) (id : String)
    (h : (acc.map Prod.fst).Nodup) : ((addToGroup acc lvl id).map Prod.fst).Nodup := by
  rw [addToGroup_keys]
  by_cases hm : lvl ∈ acc.map Prod.fst
  · rw [if_pos hm]; exact h
  · rw [if_neg hm]
    rw [List.nodup_append]
    refine ⟨h, List.nodup_singleton lvl, ?_⟩
    intro a ha hak
    rw [List.mem_singleton] at hak
    subst hak
    exact hm ha

theorem mem_addToGroup_same (acc : List (Int × List String)) (lvl : Int) (id : String)
    (ids : List String) (hk : (acc.map Prod.fst).Nodup) (hm : (lvl, ids) ∈ acc) :
    (lvl, ids ++ [id]) ∈ addToGroup acc lvl id := by
  induction acc with
  | nil => simp at hm
  | cons g rest ih =>
    simp only [List.map_cons, List.nodup_cons] at hk
    rcases List.mem_cons.mp hm with heq | hrest
    · rw [← heq]
      simp [addToGroup]
    · have hne : g.1 ≠ lvl := by
        intro he
        exact hk.1 (he ▸ List.mem_map_of_mem Prod.fst hrest)
      simp only [addToGroup, if_neg hne]
      exact List.mem_cons_of_mem g (ih hk.2 hrest)

theorem mem_addToGroup_other (acc : List (Int × List String)) (lvl : Int) (id : String)
    (l : Int) (ids : List String) (hne : l ≠ lvl) (hm : (l, ids) ∈ acc) :
    (l, ids) ∈ addToGroup acc lvl id := by
  induction acc with
  | nil => simp at hm
  | cons g rest ih =>
    rcases List.mem_cons.mp hm with heq | hrest
    · have hg : ¬ g.1 = lvl := by
        rw [← heq]
        exact hne
      simp only [addToGroup, if_neg hg]
      rw [heq]
      exact List.mem_cons_self g _
    · by_cases hg : g.1 = lvl
      · simp only [addToGroup, if_pos hg]
        exact List.mem_cons_of_mem _ hrest
      · simp only [addToGroup, if_neg hg]
        exact List.mem_cons_of_mem g (ih hrest)

theorem mem_addToGroup_new (acc : List (Int × List String)) (lvl : Int) (id : String)
    (hnot : lvl ∉ acc.map Prod.fst) : (lvl, [id]) ∈ addToGroup acc lvl id := by
  induction acc with
  | nil => simp [addToGroup]
  | cons g rest ih =>
    simp only [List.map_cons, List.mem_cons] at hnot
    push_neg at hnot
    simp only [addToGroup, if_neg (Ne.symm hnot.1)]
    exact List.mem_cons_of_mem g (ih hnot.2)

theorem mem_addToGroup_insert (acc : List (Int × List String)) (lvl : Int) (id : String)
    (hk : (acc.map Prod.fst).Nodup) :
    ∃ ids, (lvl, ids) ∈ addToGroup acc lvl id ∧ id ∈ ids := by
  by_cases hm : lvl ∈ acc.map Prod.fst
  · rcases List.mem_map.mp hm with ⟨g, hg, hfst⟩
    obtain ⟨l0, ids0⟩ := g
    simp only at hfst
    subst hfst
    exact ⟨ids0 ++ [id], mem_addToGroup_same acc l0 id ids0 hk hg, by simp⟩
  · exact ⟨[id], mem_addToGroup_new acc lvl id hm, by simp⟩

theorem mem_addToGroup_preserve (acc : List (Int × List String)) (lvl : Int) (id : String)
    (l : Int) (ids : List String) (id0 : String) (hk : (acc.map Prod.fst).Nodup)
    (hm : (l, ids) ∈ acc) (hid : id0 ∈ ids) :
    ∃ ids2, (l, ids2) ∈ addToGroup acc lvl id ∧ id0 ∈ ids2 := by
  by_cases hl : l = lvl
  · subst hl
    exact ⟨ids ++ [id], mem_addToGroup_same acc l id ids hk hm, by simp [hid]⟩
  · exact ⟨ids, mem_addToGroup_other acc lvl id l ids hl hm, hid⟩

theorem buildLevelGroups_fold_keys_nodup (lv : Levels) :
    ∀ acc : List (Int × List String), (acc.map Prod.fst).Nodup →
      ((lv.foldl (fun a kv => addToGroup a kv.2 kv.1) acc).map Prod.fst).Nodup := by
  induction lv with
  | nil => intro acc h; exact h
  | cons kv rest ih =>
    intro acc h
    exact ih (addToGroup acc kv.2 kv.1) (addToGroup_keys_nodup acc kv.2 kv.1 h)

theorem buildLevelGroups_keys_nodup (lv : Levels) :
    ((buildLevelGroups lv).map Prod.fst).Nodup := by
  exact buildLevelGroups_fold_keys_nodup lv [] (by simp)

theorem buildLevelGroups_fold_covers (lv : Levels) :
    ∀ acc : List (Int × List String), (acc.map Prod.fst).Nodup →
      ∀ id l, ((id, l) ∈ lv ∨ ∃ ids, (l, ids) ∈ acc ∧ id ∈ ids) →
      ∃ ids, (l, ids) ∈ lv.foldl (fun a kv => addToGroup a kv.2 kv.1) acc ∧ id ∈ ids := by
  induction lv with
  | nil =>
    intro acc _ id l hm
    rcases hm with hm | hm
    · simp at hm
    · exact hm
  | cons kv rest ih =>
    intro acc hk id l hm
    show ∃ ids, (l, ids) ∈ rest.foldl _ (addToGroup acc kv.2 kv.1) ∧ id ∈ ids
    have hk2 := addToGroup_keys_nodup acc kv.2 kv.1 hk
    rcases hm with hm | hm
    · rcases List.mem_cons.mp hm with heq | hrest
      · obtain ⟨a, b⟩ := kv
        rw [Prod.mk.injEq] at heq
        obtain ⟨rfl, rfl⟩ := heq
        rcases mem_addToGroup_insert acc l id hk with ⟨ids, hmem, hid⟩
        exact ih (addToGroup acc l id) hk2 id l (Or.inr ⟨ids, hmem, hid⟩)
      · exact ih (addToGroup acc kv.2 kv.1) hk2 id l (Or.inl hrest)
    · rcases hm with ⟨ids, hmem, hid⟩
      rcases mem_addToGroup_preserve acc kv.2 kv.1 l ids id hk hmem hid with ⟨ids2, hmem2, hid2⟩
      exact ih (addToGroup acc kv.2 kv.1) hk2 id l (Or.inr ⟨ids2, hmem2, hid2⟩)

theorem buildLevelGroups_covers (lv : Levels) (id : String) (l : Int)
    (h : (id, l) ∈ lv) :
    ∃ ids, (l, ids) ∈ buildLevelGroups lv ∧ id ∈ ids := by
  exact buildLevelGroups_fold_covers lv [] (by simp) id l (Or.inl h)

/-! ### The fold placing all rows -/

theorem foldGroups_lookup_notmem :
    ∀ (gs : List (Int × List String)) (acc : List (String × Position)) (id : String),
      id ∉ gs.flatMap (fun g => g.2) →
      lookupPos (gs.foldl (fun a g => placeRow a g.1 g.2) acc) id = lookupPos acc id := by
  intro gs
  induction gs with
  | nil => intro acc id _; rfl
  | cons g rest ih =>
    intro acc id hid
    rw [List.flatMap_cons, List.mem_append] at hid
    push_neg at hid
    show lookupPos (rest.foldl _ (placeRow acc g.1 g.2)) id = _
    rw [ih (placeRow acc g.1 g.2) id hid.2]
    exact placeRow_lookup_notmem acc g.1 g.2 id hid.1

theorem foldGroups_lookup_get :
    ∀ (gs : List (Int × List String)) (acc : List (String × Position))
      (lvl : Int) (ids : List String),
      (gs.flatMap (fun g => g.2)).Nodup → (lvl, ids) ∈ gs →
      ∀ i (hi : i < ids.length),
      lookupPos (gs.foldl (fun a g => placeRow a g.1 g.2) acc) (ids.get ⟨i, hi⟩) =
        some (rowPosition ids.length lvl i) := by
  intro gs
  induction gs with
  | nil => intro acc lvl ids _ hm; simp at hm
  | cons g rest ih =>
    intro acc lvl ids hnd hm i hi
    rw [List.flatMap_cons, List.nodup_append] at hnd
    obtain ⟨hg2, hrest, hdisj⟩ := hnd
    show lookupPos (rest.foldl _ (placeRow acc g.1 g.2)) (ids.get ⟨i, hi⟩) = _
    rcases List.mem_cons.mp hm with heq | hmr
    · obtain ⟨a, b⟩ := g
      rw [Prod.mk.injEq] at heq
      obtain ⟨rfl, rfl⟩ := heq.symm
      have hmem : ids.get ⟨i, hi⟩ ∈ ids := List.get_mem ids i hi
      rw [foldGroups_lookup_notmem rest (placeRow acc lvl ids) _
        (fun hc => hdisj hmem hc)]
      exact placeRow_lookup_get acc lvl ids hg2 i hi
    · exact ih (placeRow acc g.1 g.2) lvl ids hrest hmr i hi

theorem foldGroups_keys :
    ∀ (gs : List (Int × List String)) (acc : List (String × Position)),
      (gs.flatMap (fun g => g.2)).Nodup →
      (∀ id ∈ gs.flatMap (fun g => g.2), id ∉ acc.map Prod.fst) →
      ((gs.foldl (fun a g => placeRow a g.1 g.2) acc).map Prod.fst) =
        acc.map Prod.fst ++ gs.flatMap (fun g => g.2) := by
  intro gs
  induction gs with
  | nil => intro acc _ _; simp
  | cons g rest ih =>
    intro acc hnd hfresh
    rw [List.flatMap_cons] at hnd hfresh ⊢
    rw [List.nodup_append] at hnd
    obtain ⟨hg2, hrest, hdisj⟩ := hnd
    show ((rest.foldl _ (placeRow acc g.1 g.2)).map Prod.fst) = _
    rw [ih (placeRow acc g.1 g.2) hrest ?_]
    · rw [placeRow_keys acc g.1 g.2 hg2
        (fun id hid => hfresh id (List.mem_append.mpr (Or.inl hid)))]
      rw [List.append_assoc]
    · intro id hid
      rw [placeRow_keys acc g.1 g.2 hg2
        (fun id2 hid2 => hfresh id2 (List.mem_append.mpr (Or.inl hid2)))]
      rw [List.mem_append]
      push_neg
      refine ⟨hfresh id (List.mem_append.mpr (Or.inr hid)), ?_⟩
      intro hc
      exact hdisj hc hid

/-! ### Unfolding `calculateLayout` through `runLevelPhases` -/

theorem calculateLayoutFrom_eq (prev : List (String × Position)) (fuel : Nat)
    (quests : List Quest) (s2 : LayoutState)
    (h : runLevelPhases fuel quests = some s2) :
    calculateLayoutFrom prev fuel quests = some
      ⟨(buildLevelGroups s2.levels).foldl (fun acc g => placeRow acc g.1 g.2) [],
        jsMaxFold ((buildLevelGroups s2.levels).map Prod.fst),
        buildLevelGroups s2.levels⟩ := by
  unfold calculateLayoutFrom
  rw [h]

theorem calculateLayout_eq (fuel : Nat) (quests : List Quest) (s2 : LayoutState)
    (h : runLevelPhases fuel quests = some s2) :
    calculateLayout fuel quests = some
      ⟨(buildLevelGroups s2.levels).foldl (fun acc g => placeRow acc g.1 g.2) [],
        jsMaxFold ((buildLevelGroups s2.levels).map Prod.fst),
        buildLevelGroups s2.levels⟩ :=
  calculateLayoutFrom_eq [] fuel quests s2 h

theorem groupsFlat_nodup (lv : Levels) (h : (lv.map Prod.fst).Nodup) :
    ((buildLevelGroups lv).flatMap (fun g => g.2)).Nodup :=
  (List.Perm.nodup_iff (buildLevelGroups_flat_perm lv)).mpr h

/-! ### Divergence of `assignLevel` on a cycle fed by a resolved prerequisite -/

theorem divergent_cycle (fuel : Nat) :
    (∀ a b : Int, a < b + 1 → 0 ≤ b →
      assignLevel divergentQuests fuel (stAB a b) ⟨"A", false, ["R","B"]⟩ (b+1) = none) ∧
    (∀ a b : Int, b < a + 1 → 0 ≤ a →
      assignLevel divergentQuests fuel (stAB a b) ⟨"B", false, ["A"]⟩ (a+1) = none) := by
  induction fuel with
  | zero => exact ⟨fun _ _ _ _ => rfl, fun _ _ _ _ => rfl⟩
  | succ f ih =>
    refine ⟨fun a b hab hb => ?_, fun a b hba ha => ?_⟩
    · simp only [assignLevel]
      rw [if_neg (by simp [stAB, lookupLevel, existingGE]; omega)]
      have hset : setLevel (stAB a b).levels "A" (b+1) = (stAB (b+1) b).levels := by
        simp [stAB, setLevel]
      have hproc : addProcessed (stAB a b).processed "A" = (stAB (b+1) b).processed := by
        simp [stAB, addProcessed]
      have hfilter : divergentQuests.filter (fun q => decide (("A":String) ∈ q.prerequisites)) =
          [⟨"B", false, ["A"]⟩] := by simp [divergentQuests]
      rw [hset, hproc, hfilter]
      show assignChildrenAux (assignLevel divergentQuests f) (stAB (b+1) b)
        [⟨"B", false, ["A"]⟩] = none
      simp only [assignChildrenAux]
      have hres : resolvedLevels (stAB (b+1) b).levels ["A"] = [b+1] := by
        simp [stAB, resolvedLevels, lookupLevel]
      rw [hres]
      simp only [listMax, intMax1, List.length]
      simp only [if_true]
      rw [ih.2 (b+1) b (by omega) (by omega)]
    · simp only [assignLevel]
      rw [if_neg (by simp [stAB, lookupLevel, existingGE]; omega)]
      have hset : setLevel (stAB a b).levels "B" (a+1) = (stAB a (a+1)).levels := by
        simp [stAB, setLevel]
      have hproc : addProcessed (stAB a b).processed "B" = (stAB a (a+1)).processed := by
        simp [stAB, addProcessed]
      have hfilter : divergentQuests.filter (fun q => decide (("B":String) ∈ q.prerequisites)) =
          [⟨"A", false, ["R","B"]⟩] := by simp [divergentQuests]
      rw [hset, hproc, hfilter]
      show assignChildrenAux (assignLevel divergentQuests f) (stAB a (a+1))
        [⟨"A", false, ["R","B"]⟩] = none
      simp only [assignChildrenAux]
      have hres : resolvedLevels (stAB a (a+1)).levels ["R","B"] = [0, a+1] := by
        simp [stAB, resolvedLevels, lookupLevel]
      rw [hres]
      simp only [listMax, intMax1, List.length]
      simp only [if_true]
      rw [max_eq_right (by omega : (0:Int) ≤ a + 1)]
      rw [ih.1 a (a+1) (by omega) (by omega)]

theorem runLevelPhases_divergent (fuel : Nat) : runLevelPhases fuel divergentQuests = none := by
  match fuel with
  | 0 => rfl
  | 1 => rfl
  | (g+2) =>
    have hB : assignLevel divergentQuests (g+1) ⟨[("R",0),("A",1)], ["R","A"]⟩
        ⟨"B", false, ["A"]⟩ 2 = none := by
      simp only [assignLevel]
      rw [if_neg (by simp [lookupLevel, existingGE])]
      have hset : setLevel [("R",0),("A",1)] "B" 2 = (stAB 1 2).levels := by
        simp [stAB, setLevel]
      have hproc : addProcessed ["R","A"] "B" = (stAB 1 2).processed := by
        simp [stAB, addProcessed]
      have hfilter : divergentQuests.filter (fun q => decide (("B":String) ∈ q.prerequisites)) =
          [⟨"A", false, ["R","B"]⟩] := by simp [divergentQuests]
      rw [show (⟨setLevel [("R",0),("A",1)] "B" 2, addProcessed ["R","A"] "B"⟩ : LayoutState) =
        stAB 1 2 by rw [LayoutState.mk.injEq]; exact ⟨hset, hproc⟩, hfilter]
      show assignChildrenAux (assignLevel divergentQuests g) (stAB 1 2)
        [⟨"A", false, ["R","B"]⟩] = none
      simp only [assignChildrenAux]
      have hres : resolvedLevels (stAB 1 2).levels ["R","B"] = [0, 2] := by
        simp [stAB, resolvedLevels, lookupLevel]
      rw [hres]
      norm_num [listMax, intMax1]
      have hcyc := (divergent_cycle g).1 1 2 (by omega) (by omega)
      norm_num at hcyc
      rw [hcyc]
    have hA : assignLevel divergentQuests (g+2) ⟨[("R",0)], ["R"]⟩
        ⟨"A", false, ["R","B"]⟩ 1 = none := by
      simp only [assignLevel]
      rw [if_neg (by simp [lookupLevel, existingGE])]
      have hfilter : divergentQuests.filter (fun q => decide (("A":String) ∈ q.prerequisites)) =
          [⟨"B", false, ["A"]⟩] := by simp [divergentQuests]
      rw [hfilter]
      show assignChildrenAux (assignLevel divergentQuests (g+1))
        ⟨[("R",0),("A",1)], ["R","A"]⟩ [⟨"B", false, ["A"]⟩] = none
      simp only [assignChildrenAux]
      have hres : resolvedLevels [("R",0),("A",1)] ["A"] = [1] := by
        simp [resolvedLevels, lookupLevel]
      rw [hres]
      norm_num [listMax, intMax1]
      rw [hB]
    have h1 : processRoots divergentQuests (g+2) ⟨[], []⟩ (rootsOf divergentQuests) =
        some ⟨[("R",0)], ["R"]⟩ := rfl
    have hsweep : sweepPass divergentQuests (g+2) ⟨[("R",0)], ["R"]⟩ divergentQuests = none := by
      have hbridge : sweepPass divergentQuests (g+2) ⟨[("R",0)], ["R"]⟩ divergentQuests =
          (match assignLevel divergentQuests (g+2) ⟨[("R",0)], ["R"]⟩
              ⟨"A", false, ["R","B"]⟩ 1 with
           | none => none
           | some s2 => sweepPass divergentQuests (g+2) s2 [⟨"B", false, ["A"]⟩]) := rfl
      rw [hbridge, hA]
    show runLevelPhases (g+2) divergentQuests = none
    rw [runLevelPhases, h1]
    show sweepLoop divergentQuests (g+2) 10 ⟨[("R",0)], ["R"]⟩ = none
    simp only [sweepLoop]
    rw [if_pos (by norm_num [divergentQuests])]
    rw [hsweep]

/-- C2: the claim that `calculateLayout` terminates on every input is wrong
on the code: with root R, A requiring R and B, and B requiring A, the
recursion of `assignLevel` climbs the A-B cycle forever (each pass around
the cycle raises both levels), so no recursion depth suffices — the fuelled
model returns `none` at every fuel.  In JavaScript this is an unbounded
recursion that overflows the call stack. -/
theorem calculateLayout_diverges_on_fed_cycle (fuel : Nat) :
    calculateLayout fuel divergentQuests = none := by
  rw [calculateLayout, calculateLayoutFrom, runLevelPhases_divergent fuel]

/-- C1 counterexample: on the two-quest cycle (A requires B, B requires A)
`calculateLayout` completes but returns an empty position mapping: both
quests are silently dropped, so `|positions| = 0 ≠ 2 = |quests|`. -/
theorem cyclic_dataset_drops_positions :
    calculateLayout 100 cycleQuests = some ⟨[], JsMax.negInf, []⟩ ∧
    cycleQuests.length = 2 := ⟨rfl, rfl⟩

/-- C3 counterexample: the quest X whose only prerequisite id is absent from
the dataset receives no position at all — the returned mapping is empty, so
`nodePositions.get("X")` is undefined, contrary to the claim that X is
placed at level 0 by the fallback sweep. -/
theorem unknown_prereq_quest_unplaced :
    (calculateLayout 100 unknownPrereqQuests).map
      (fun r => lookupPos r.nodePositions "X") = some none ∧
    unknownPrereqQuests.length = 1 := ⟨rfl, rfl⟩

/-- C3 amended: quest X with only an unknown prerequisite id is never placed.
The sweep condition (app.js line 238) tests the raw `prerequisites.length`,
not the filtered `prereqLevels`, so X satisfies neither branch
(`prereqLevels` is empty and `prerequisites.length` is 1) and is skipped on
all ten passes at every fuel; layout terminates with an empty mapping. -/
theorem unknown_prereq_sweep_skips (fuel : Nat) :
    calculateLayout fuel unknownPrereqQuests = some ⟨[], JsMax.negInf, []⟩ := rfl

theorem optLE_some_elim (v : Int) (o : Option Int) (h : optLE (some v) o) :
    ∃ w, o = some w ∧ v ≤ w := by
  cases o with
  | none => exact h.elim
  | some w => exact ⟨w, rfl, h⟩

/-- C9: levels never regress.  Whenever `assignLevel`, the root propagation
or the fallback sweep completes, every quest id that already had a level
still has one, and the new level is not smaller — re-assignment only ever
replaces a level with a greater-or-equal one. -/
theorem level_never_regresses :
    (∀ quests fuel s q lvl s2, ProcLevelInv s →
      assignLevel quests fuel s q lvl = some s2 →
      ∀ id v, lookupLevel s.levels id = some v →
        ∃ v2, lookupLevel s2.levels id = some v2 ∧ v ≤ v2) ∧
    (∀ quests fuel s rs s2, ProcLevelInv s →
      processRoots quests fuel s rs = some s2 →
      ∀ id v, lookupLevel s.levels id = some v →
        ∃ v2, lookupLevel s2.levels id = some v2 ∧ v ≤ v2) ∧
    (∀ quests fuel attempts s s2, ProcLevelInv s →
      sweepLoop quests fuel attempts s = some s2 →
      ∀ id v, lookupLevel s.levels id = some v →
        ∃ v2, lookupLevel s2.levels id = some v2 ∧ v ≤ v2) := by
  refine ⟨?_, ?_, ?_⟩
  · intro quests fuel s q lvl s2 hinv h id v hv
    have hm := (assignLevel_mono quests fuel s q lvl s2 hinv h).2.1 id
    rw [hv] at hm
    exact optLE_some_elim v _ hm
  · intro quests fuel s rs s2 hinv h id v hv
    have hm := (processRoots_mono quests fuel rs s s2 hinv h).2.1 id
    rw [hv] at hm
    exact optLE_some_elim v _ hm
  · intro quests fuel attempts s s2 hinv h id v hv
    have hm := (sweepLoop_mono quests fuel attempts s s2 hinv h).2.1 id
    rw [hv] at hm
    exact optLE_some_elim v _ hm

theorem level_never_regresses_witness :
    ProcLevelInv ⟨[("R", 0)], ["R"]⟩ ∧
    assignLevel diamondQuests 5 ⟨[("R", 0)], ["R"]⟩ ⟨"M1", false, ["R"]⟩ 1 =
      some ⟨[("R", 0), ("M1", 1)], ["R", "M1"]⟩ ∧
    ∃ v2, lookupLevel [("R", 0), ("M1", 1)] "R" = some v2 ∧ (0 : Int) ≤ v2 := by
  have hinv : ProcLevelInv ⟨[("R", 0)], ["R"]⟩ := by
    intro id
    by_cases h : id = "R"
    · subst h
      simp [lookupLevel]
    · simp [lookupLevel, h, Ne.symm h]
  refine ⟨hinv, rfl, ?_⟩
  exact level_never_regresses.1 diamondQuests 5 ⟨[("R", 0)], ["R"]⟩
    ⟨"M1", false, ["R"]⟩ 1 ⟨[("R", 0), ("M1", 1)], ["R", "M1"]⟩ hinv rfl "R" 0 rfl

/-- C10: with an empty quest set (and in general whenever no quest receives
a level) `calculateLayout` completes with an empty position mapping, empty
level groups and `maxLevel = Math.max() = -Infinity` (the `negInf` value),
not a non-negative integer. -/
theorem empty_layout_negInf_maxLevel :
    (∀ fuel, calculateLayout fuel [] = some ⟨[], JsMax.negInf, []⟩) ∧
    (∀ fuel quests s2, runLevelPhases fuel quests = some s2 → s2.levels = [] →
      calculateLayout fuel quests = some ⟨[], JsMax.negInf, []⟩) := by
  constructor
  · intro fuel
    rfl
  · intro fuel quests s2 h hlv
    rw [calculateLayout_eq fuel quests s2 h, hlv]
    rfl

theorem empty_layout_negInf_maxLevel_witness :
    runLevelPhases 0 [] = some ⟨[], []⟩ ∧
    calculateLayout 0 [] = some ⟨[], JsMax.negInf, []⟩ :=
  ⟨rfl, empty_layout_negInf_maxLevel.2 0 [] ⟨[], []⟩ rfl rfl⟩

/-- C8: the layout is a pure function of the quest set.  The result never
depends on the residual global `nodePositions` left by an earlier run
(`nodePositions.clear()` is the first statement of `calculateLayout`), so a
second run on the first run's residue returns the identical result. -/
theorem layout_idempotent (fuel : Nat) (quests : List Quest) (res : LayoutResult)
    (h : calculateLayout fuel quests = some res) :
    calculateLayoutFrom res.nodePositions fuel quests = some res ∧
    ∀ prev, calculateLayoutFrom prev fuel quests = calculateLayout fuel quests := by
  refine ⟨?_, fun prev => rfl⟩
  exact h

theorem diamond_runLevelPhases : runLevelPhases 100 diamondQuests = some diamondState := by
  decide

theorem diamond_layout : calculateLayout 100 diamondQuests = some diamondResult := by
  rw [calculateLayout_eq 100 diamondQuests diamondState diamond_runLevelPhases]
  show some _ = some diamondResult
  norm_num [diamondState, diamondResult, buildLevelGroups, addToGroup, placeRow,
    List.enum, List.enumFrom, setPosition, jsMaxFold, nodeSpacingX, nodeSpacingY,
    Position.mk.injEq, LayoutResult.mk.injEq]
  simp

theorem layout_idempotent_witness :
    calculateLayout 100 diamondQuests = some diamondResult ∧
    calculateLayoutFrom diamondResult.nodePositions 100 diamondQuests = some diamondResult :=
  ⟨diamond_layout, (layout_idempotent 100 diamondQuests diamondResult diamond_layout).1⟩

/-- C4 amended: the claimed per-edge strict inequality holds — together with
the equation `level(q) = 1 + max(level of prerequisites)` — for every quest
ALL of whose prerequisites end up with levels; for a quest with an
unresolved prerequisite the sweep can order levels arbitrarily (see the
counterexample), even when the root-reachable subgraph is acyclic. -/
theorem complete_quest_level_equation (fuel : Nat) (quests : List Quest) (s2 : LayoutState)
    (hids : (quests.map Quest.id).Nodup)
    (h : runLevelPhases fuel quests = some s2) :
    ∀ q ∈ quests, q.prerequisites ≠ [] → completeQ s2.levels q →
      lookupLevel s2.levels q.id =
        some (listMax (resolvedLevels s2.levels q.prerequisites) + 1) ∧
      ∀ p lp, p ∈ q.prerequisites → lookupLevel s2.levels p = some lp →
        lp < listMax (resolvedLevels s2.levels q.prerequisites) + 1 := by
  intro q hq hne hcomp
  obtain ⟨_, _, hnobad⟩ := runLevelPhases_master quests hids fuel s2 h
  constructor
  · by_contra hneq
    exact hnobad q hq ⟨hne, hcomp, hneq⟩
  · intro p lp hp hlp
    have hmem : lp ∈ resolvedLevels s2.levels q.prerequisites :=
      (mem_resolvedLevels _ _ _).mpr ⟨p, hp, hlp⟩
    have := listMax_ge _ lp hmem
    omega

theorem complete_quest_level_equation_witness :
    (diamondQuests.map Quest.id).Nodup ∧
    runLevelPhases 100 diamondQuests = some diamondState ∧
    lookupLevel diamondState.levels "F" = some 2 ∧
    (1 : Int) < 2 := by
  refine ⟨by decide, diamond_runLevelPhases, ?_, by decide⟩
  have h := (complete_quest_level_equation 100 diamondQuests diamondState (by decide)
    diamond_runLevelPhases ⟨"F", false, ["M1", "M2"]⟩ (by decide) (by decide) (by decide)).1
  have he : listMax (resolvedLevels diamondState.levels
      (Quest.mk "F" false ["M1", "M2"]).prerequisites) + 1 = 2 := by decide
  rw [he] at h
  exact h

/-- C4 counterexample: in `equalLevelQuests` the root-reachable subgraph
(r → q, r → p, p → q) is acyclic, yet the completed layout assigns
`level(q) = level(p) = 1` although p is a prerequisite of q — the strict
inequality `level(q) > level(p)` fails, because q was swept before p using
only its already-resolved prerequisite r, and q's unknown prerequisite id u
blocks the later cascade from correcting it. -/
theorem sweep_breaks_strict_level_order :
    runLevelPhases 100 equalLevelQuests = some equalLevelState ∧
    "p" ∈ (⟨"q", false, ["r", "p", "u"]⟩ : Quest).prerequisites ∧
    lookupLevel equalLevelState.levels "q" = some 1 ∧
    lookupLevel equalLevelState.levels "p" = some 1 := by
  exact ⟨rfl, by decide, rfl, rfl⟩

/-- C1 amended: the returned position mapping covers exactly the quests that
received a level: an id has a position iff it has a level, each exactly once,
and `|positions| = |levels|`.  Quests left unleveled (cycles with no
resolvable entry, or quests whose prerequisites never resolve) are absent
from the mapping, so `|positions|` can be smaller than `|quests|`. -/
theorem positions_exactly_cover_leveled_quests (fuel : Nat) (quests : List Quest)
    (s2 : LayoutState) (res : LayoutResult)
    (hids : (quests.map Quest.id).Nodup)
    (h1 : runLevelPhases fuel quests = some s2)
    (h2 : calculateLayout fuel quests = some res) :
    (∀ id, (lookupPos res.nodePositions id).isSome ↔ (lookupLevel s2.levels id).isSome) ∧
    res.nodePositions.length = s2.levels.length ∧
    (res.nodePositions.map Prod.fst).Nodup := by
  rw [calculateLayout_eq fuel quests s2 h1] at h2
  have hres : res.nodePositions =
      (buildLevelGroups s2.levels).foldl (fun a g => placeRow a g.1 g.2) [] :=
    (congrArg LayoutResult.nodePositions (Option.some.inj h2)).symm
  obtain ⟨hstinv, _, _⟩ := runLevelPhases_master quests hids fuel s2 h1
  have hflat := groupsFlat_nodup s2.levels hstinv.keysNodup
  have hkeys : (res.nodePositions).map Prod.fst =
      (buildLevelGroups s2.levels).flatMap (fun g => g.2) := by
    rw [hres]
    have := foldGroups_keys (buildLevelGroups s2.levels) [] hflat (by intro id h; simp)
    simpa using this
  have hperm := buildLevelGroups_flat_perm s2.levels
  refine ⟨?_, ?_, ?_⟩
  · intro id
    rw [lookupPos_isSome_iff_mem, lookupLevel_isSome_iff_mem, hkeys]
    exact List.Perm.mem_iff hperm
  · rw [← List.length_map res.nodePositions Prod.fst, hkeys,
      List.Perm.length_eq hperm, List.length_map]
  · rw [hkeys]
    exact hflat

theorem positions_exactly_cover_leveled_quests_witness :
    ((lookupPos diamondResult.nodePositions "M2").isSome ↔
      (lookupLevel diamondState.levels "M2").isSome) ∧
    diamondResult.nodePositions.length = diamondState.levels.length := by
  have h := positions_exactly_cover_leveled_quests 100 diamondQuests diamondState
    diamondResult (by decide) diamond_runLevelPhases diamond_layout
  exact ⟨h.1 "M2", h.2.1⟩

/-- C6: row centering.  `rowPosition` (the position the code computes for
the i-th of n ids of a level) is exactly
`x = -((n-1)·nodeSpacingX)/2 + i·nodeSpacingX`; every id of every level
group is placed at its `rowPosition`; and the first and last quest of a row
of n quests are `(n-1)·nodeSpacingX` apart, so the row is centred on 0. -/
theorem row_centering (fuel : Nat) (quests : List Quest)
    (s2 : LayoutState) (res : LayoutResult)
    (hids : (quests.map Quest.id).Nodup)
    (h1 : runLevelPhases fuel quests = some s2)
    (h2 : calculateLayout fuel quests = some res) :
    (∀ (n : Nat) (lvl : Int) (i : Nat), rowPosition n lvl i =
      ⟨-(((n : ℚ) - 1) * nodeSpacingX) / 2 + (i : ℚ) * nodeSpacingX,
        (lvl : ℚ) * nodeSpacingY⟩) ∧
    (∀ lvl ids, (lvl, ids) ∈ res.levelGroups → ∀ i (hi : i < ids.length),
      lookupPos res.nodePositions (ids.get ⟨i, hi⟩) = some (rowPosition ids.length lvl i)) ∧
    (∀ lvl ids, (lvl, ids) ∈ res.levelGroups → ∀ hne : ids ≠ [],
      ∃ p0 pl,
        lookupPos res.nodePositions (ids.get ⟨0, List.length_pos.mpr hne⟩) = some p0 ∧
        lookupPos res.nodePositions (ids.get ⟨ids.length - 1, by
          have := List.length_pos.mpr hne
          omega⟩) = some pl ∧
        pl.x - p0.x = ((ids.length : ℚ) - 1) * nodeSpacingX) := by
  rw [calculateLayout_eq fuel quests s2 h1] at h2
  have hres : res.nodePositions =
      (buildLevelGroups s2.levels).foldl (fun a g => placeRow a g.1 g.2) [] :=
    (congrArg LayoutResult.nodePositions (Option.some.inj h2)).symm
  have hgroups : res.levelGroups = buildLevelGroups s2.levels :=
    (congrArg LayoutResult.levelGroups (Option.some.inj h2)).symm
  obtain ⟨hstinv, _, _⟩ := runLevelPhases_master quests hids fuel s2 h1
  have hflat := groupsFlat_nodup s2.levels hstinv.keysNodup
  have hget : ∀ lvl ids, (lvl, ids) ∈ res.levelGroups → ∀ i (hi : i < ids.length),
      lookupPos res.nodePositions (ids.get ⟨i, hi⟩) =
        some (rowPosition ids.length lvl i) := by
    intro lvl ids hm i hi
    rw [hgroups] at hm
    rw [hres]
    exact foldGroups_lookup_get (buildLevelGroups s2.levels) [] lvl ids hflat hm i hi
  refine ⟨?_, hget, ?_⟩
  · intro n lvl i
    unfold rowPosition
    rw [Position.mk.injEq]
    constructor
    · push_cast
      ring
    · rfl
  · intro lvl ids hm hne
    have h1n : 1 ≤ ids.length := List.length_pos.mpr hne
    refine ⟨rowPosition ids.length lvl 0, rowPosition ids.length lvl (ids.length - 1),
      hget lvl ids hm 0 (by omega), hget lvl ids hm (ids.length - 1) (by omega), ?_⟩
    unfold rowPosition
    show -((((ids.length : Int) - 1 : Int) : ℚ) * nodeSpacingX) / 2 +
        ((ids.length - 1 : Nat) : ℚ) * nodeSpacingX -
      (-((((ids.length : Int) - 1 : Int) : ℚ) * nodeSpacingX) / 2 +
        ((0 : Nat) : ℚ) * nodeSpacingX) = ((ids.length : ℚ) - 1) * nodeSpacingX
    rw [Nat.cast_sub h1n]
    push_cast
    ring

theorem row_centering_witness :
    lookupPos diamondResult.nodePositions "M1" = some ⟨-80, 80⟩ ∧
    lookupPos diamondResult.nodePositions "M2" = some ⟨80, 80⟩ := by
  have h := (row_centering 100 diamondQuests diamondState diamondResult (by decide)
    diamond_runLevelPhases diamond_layout).2.1 1 ["M1", "M2"] (by simp [diamondResult])
  have h0 := h 0 (by norm_num)
  have h1 := h 1 (by norm_num)
  have e0 : rowPosition 2 1 0 = (⟨-80, 80⟩ : Position) := by
    unfold rowPosition
    rw [Position.mk.injEq]
    norm_num [nodeSpacingX, nodeSpacingY]
  have e1 : rowPosition 2 1 1 = (⟨80, 80⟩ : Position) := by
    unfold rowPosition
    rw [Position.mk.injEq]
    norm_num [nodeSpacingX, nodeSpacingY]
  constructor
  · rw [← e0]
    exact h0
  · rw [← e1]
    exact h1

/-- C7: vertical placement.  Every quest with a level `l` has a position
whose y coordinate is exactly `l · nodeSpacingY`, and two quests with
different levels never share a y coordinate. -/
theorem vertical_placement_exact (fuel : Nat) (quests : List Quest)
    (s2 : LayoutState) (res : LayoutResult)
    (hids : (quests.map Quest.id).Nodup)
    (h1 : runLevelPhases fuel quests = some s2)
    (h2 : calculateLayout fuel quests = some res) :
    (∀ id l, lookupLevel s2.levels id = some l →
      ∃ p, lookupPos res.nodePositions id = some p ∧ p.y = (l : ℚ) * nodeSpacingY) ∧
    (∀ id1 id2 l1 l2 p1 p2, lookupLevel s2.levels id1 = some l1 →
      lookupLevel s2.levels id2 = some l2 →
      lookupPos res.nodePositions id1 = some p1 →
      lookupPos res.nodePositions id2 = some p2 →
      l1 ≠ l2 → p1.y ≠ p2.y) := by
  rw [calculateLayout_eq fuel quests s2 h1] at h2
  have hres : res.nodePositions =
      (buildLevelGroups s2.levels).foldl (fun a g => placeRow a g.1 g.2) [] :=
    (congrArg LayoutResult.nodePositions (Option.some.inj h2)).symm
  obtain ⟨hstinv, _, _⟩ := runLevelPhases_master quests hids fuel s2 h1
  have hflat := groupsFlat_nodup s2.levels hstinv.keysNodup
  have hy : ∀ id l, lookupLevel s2.levels id = some l →
      ∃ p, lookupPos res.nodePositions id = some p ∧ p.y = (l : ℚ) * nodeSpacingY := by
    intro id l hl
    have hmem := lookupLevel_eq_some_mem s2.levels id l hl
    rcases buildLevelGroups_covers s2.levels id l hmem with ⟨ids, hg, hid⟩
    rcases List.mem_iff_get.mp hid with ⟨⟨i, hi⟩, rfl⟩
    refine ⟨rowPosition ids.length l i, ?_, rfl⟩
    rw [hres]
    exact foldGroups_lookup_get (buildLevelGroups s2.levels) [] l ids hflat hg i hi
  refine ⟨hy, ?_⟩
  intro id1 id2 l1 l2 p1 p2 hl1 hl2 hp1 hp2 hne
  rcases hy id1 l1 hl1 with ⟨q1, hq1, hy1⟩
  rcases hy id2 l2 hl2 with ⟨q2, hq2, hy2⟩
  rw [hp1] at hq1
  rw [hp2] at hq2
  obtain rfl := Option.some.inj hq1
  obtain rfl := Option.some.inj hq2
  rw [hy1, hy2]
  intro hc
  have h80 : (nodeSpacingY : ℚ) ≠ 0 := by norm_num [nodeSpacingY]
  have hcast : (l1 : ℚ) = (l2 : ℚ) := mul_right_cancel₀ h80 hc
  exact hne (Int.cast_injective hcast)

theorem vertical_placement_exact_witness :
    ∃ p, lookupPos diamondResult.nodePositions "F" = some p ∧
      p.y = ((2 : Int) : ℚ) * nodeSpacingY := by
  exact (vertical_placement_exact 100 diamondQuests diamondState diamondResult (by decide)
    diamond_runLevelPhases diamond_layout).1 "F" 2 (by decide)

/-! ### Tracking one no-prerequisite quest id through the computation -/

theorem assignChildrenAux_qid_unchanged (quests : List Quest)
    (hids : (quests.map Quest.id).Nodup) (qid : String)
    (hq0 : ∀ x ∈ quests, x.id = qid → x.prerequisites = [])
    (f : Nat)
    (hrec : ∀ s t lvl s', StInv quests s → VOK quests s.levels → t ∈ quests →
      goodCall s t lvl → assignLevel quests f s t lvl = some s' → t.id ≠ qid →
      lookupLevel s'.levels qid = lookupLevel s.levels qid) :
    ∀ cs s s', StInv quests s → VOK quests s.levels →
      (∀ c ∈ cs, c ∈ quests ∧ c.prerequisites ≠ []) →
      assignChildrenAux (assignLevel quests f) s cs = some s' →
      lookupLevel s'.levels qid = lookupLevel s.levels qid := by
  intro cs
  induction cs with
  | nil =>
    intro s s' _ _ _ h
    obtain rfl : s = s' := Option.some.inj h
    rfl
  | cons c rest ih =>
    intro s s' hinv hvok hcs h
    obtain ⟨⟨hcq, hcne⟩, hrest⟩ :
        (c ∈ quests ∧ c.prerequisites ≠ []) ∧ ∀ d ∈ rest, d ∈ quests ∧ d.prerequisites ≠ [] :=
      ⟨hcs c (List.mem_cons_self c rest), fun d hd => hcs d (List.mem_cons_of_mem c hd)⟩
    simp only [assignChildrenAux] at h
    by_cases hcpl : (resolvedLevels s.levels c.prerequisites).length = c.prerequisites.length
    · rw [if_pos hcpl] at h
      cases hmid : assignLevel quests f s c
          (listMax (resolvedLevels s.levels c.prerequisites) + 1) with
      | none => rw [hmid] at h; exact Option.noConfusion h
      | some smid =>
        rw [hmid] at h
        have hgood : goodCall s c (listMax (resolvedLevels s.levels c.prerequisites) + 1) := by
          refine Or.inr ⟨?_, rfl⟩
          intro hnil
          rw [hnil] at hcpl
          simp at hcpl
          exact hcne (List.length_eq_zero.mp hcpl.symm)
        have hcid : c.id ≠ qid := by
          intro he
          exact hcne (hq0 c hcq he)
        obtain ⟨hinv1, hvok1, _, _⟩ :=
          assignLevel_master quests hids f s c _ smid hinv hvok hcq hgood hmid
        rw [ih smid s' hinv1 hvok1 hrest h]
        exact hrec s c _ smid hinv hvok hcq hgood hmid hcid
    · rw [if_neg hcpl] at h
      exact ih s s' hinv hvok hrest h

theorem assignLevel_qid_cases (quests : List Quest)
    (hids : (quests.map Quest.id).Nodup) (qid : String)
    (hq0 : ∀ x ∈ quests, x.id = qid → x.prerequisites = []) :
    ∀ fuel s t lvl s', StInv quests s → VOK quests s.levels → t ∈ quests →
      goodCall s t lvl → assignLevel quests fuel s t lvl = some s' →
      (t.id ≠ qid → lookupLevel s'.levels qid = lookupLevel s.levels qid) ∧
      (t.id = qid →
        (lookupLevel s.levels qid = none ∨ lookupLevel s.levels qid = some 0) →
        lookupLevel s'.levels qid = some 0) := by
  intro fuel
  induction fuel with
  | zero => intro s t lvl s' _ _ _ _ h; exact Option.noConfusion h
  | succ f ih =>
    intro s t lvl s' hinv hvok ht hgood h
    simp only [assignLevel] at h
    have hlvl0 : t.id = qid → lvl = 0 := by
      intro he
      rcases hgood with ⟨_, h0⟩ | ⟨hne, _⟩
      · exact h0
      · exact absurd (hq0 t ht he) (fun hnil => by
          unfold resolvedLevels at hne
          rw [hnil] at hne
          exact hne rfl)
    by_cases hguard : t.id ∈ s.processed ∧ existingGE (lookupLevel s.levels t.id) lvl
    · rw [if_pos hguard] at h
      obtain rfl : s = s' := Option.some.inj h
      refine ⟨fun _ => rfl, fun he hpre => ?_⟩
      rcases existingGE_elim _ _ hguard.2 with ⟨e, hlook, _⟩
      rw [he] at hlook
      rcases hpre with hpre | hpre
      · rw [hpre] at hlook
        exact Option.noConfusion hlook
      · exact hpre
    · rw [if_neg hguard] at h
      have hinv1 := setStep_stinv quests s t lvl hinv ht hgood
      have hvok1 := setStep_vok quests s t lvl hids hinv hvok ht hgood hguard
      have hch : ∀ c ∈ quests.filter (fun c => decide (t.id ∈ c.prerequisites)),
          c ∈ quests ∧ c.prerequisites ≠ [] := by
        intro c hc
        rw [List.mem_filter] at hc
        exact ⟨hc.1, List.ne_nil_of_mem (of_decide_eq_true hc.2)⟩
      have haux := assignChildrenAux_qid_unchanged quests hids qid hq0 f
        (fun s0 t0 lvl0 s0' hi hv ht0 hg hcall hne => (ih s0 t0 lvl0 s0' hi hv ht0 hg hcall).1 hne)
        _ _ s' hinv1 hvok1 hch h
      constructor
      · intro hne
        rw [haux]
        show lookupLevel (setLevel s.levels t.id lvl) qid = _
        exact lookupLevel_setLevel_ne _ _ _ _ hne
      · intro he _
        rw [haux]
        show lookupLevel (setLevel s.levels t.id lvl) qid = some 0
        rw [← he, lookupLevel_setLevel_self, hlvl0 he]

theorem assignChildrenAux_zero_intro (quests : List Quest)
    (hids : (quests.map Quest.id).Nodup) (f : Nat)
    (hrec : ∀ s t lvl s', StInv quests s → VOK quests s.levels → t ∈ quests →
      goodCall s t lvl → assignLevel quests f s t lvl = some s' →
      ∀ id, lookupLevel s'.levels id = some 0 →
        lookupLevel s.levels id = some 0 ∨ (lvl = 0 ∧ id = t.id)) :
    ∀ cs s s', StInv quests s → VOK quests s.levels →
      (∀ c ∈ cs, c ∈ quests ∧ c.prerequisites ≠ []) →
      assignChildrenAux (assignLevel quests f) s cs = some s' →
      ∀ id, lookupLevel s'.levels id = some 0 → lookupLevel s.levels id = some 0 := by
  intro cs
  induction cs with
  | nil =>
    intro s s' _ _ _ h id h0
    obtain rfl : s = s' := Option.some.inj h
    exact h0
  | cons c rest ih =>
    intro s s' hinv hvok hcs h id h0
    obtain ⟨⟨hcq, hcne⟩, hrest⟩ :
        (c ∈ quests ∧ c.prerequisites ≠ []) ∧ ∀ d ∈ rest, d ∈ quests ∧ d.prerequisites ≠ [] :=
      ⟨hcs c (List.mem_cons_self c rest), fun d hd => hcs d (List.mem_cons_of_mem c hd)⟩
    simp only [assignChildrenAux] at h
    by_cases hcpl : (resolvedLevels s.levels c.prerequisites).length = c.prerequisites.length
    · rw [if_pos hcpl] at h
      cases hmid : assignLevel quests f s c
          (listMax (resolvedLevels s.levels c.prerequisites) + 1) with
      | none => rw [hmid] at h; exact Option.noConfusion h
      | some smid =>
        rw [hmid] at h
        have hres : resolvedLevels s.levels c.prerequisites ≠ [] := by
          intro hnil
          rw [hnil] at hcpl
          simp at hcpl
          exact hcne (List.length_eq_zero.mp hcpl.symm)
        have hgood : goodCall s c (listMax (resolvedLevels s.levels c.prerequisites) + 1) :=
          Or.inr ⟨hres, rfl⟩
        obtain ⟨hinv1, hvok1, _, _⟩ :=
          assignLevel_master quests hids f s c _ smid hinv hvok hcq hgood hmid
        have h0mid := ih smid s' hinv1 hvok1 hrest h id h0
        rcases hrec s c _ smid hinv hvok hcq hgood hmid id h0mid with hpre | ⟨hlz, _⟩
        · exact hpre
        · exfalso
          have hnn := nonneg_listMax_resolved s.levels c.prerequisites hinv.nonneg hres
          omega
    · rw [if_neg hcpl] at h
      exact ih s s' hinv hvok hrest h id h0

theorem assignLevel_zero_intro (quests : List Quest)
    (hids : (quests.map Quest.id).Nodup) :
    ∀ fuel s t lvl s', StInv quests s → VOK quests s.levels → t ∈ quests →
      goodCall s t lvl → assignLevel quests fuel s t lvl = some s' →
      ∀ id, lookupLevel s'.levels id = some 0 →
        lookupLevel s.levels id = some 0 ∨ (lvl = 0 ∧ id = t.id) := by
  intro fuel
  induction fuel with
  | zero => intro s t lvl s' _ _ _ _ h; exact Option.noConfusion h
  | succ f ih =>
    intro s t lvl s' hinv hvok ht hgood h id h0
    simp only [assignLevel] at h
    by_cases hguard : t.id ∈ s.processed ∧ existingGE (lookupLevel s.levels t.id) lvl
    · rw [if_pos hguard] at h
      obtain rfl : s = s' := Option.some.inj h
      exact Or.inl h0
    · rw [if_neg hguard] at h
      have hinv1 := setStep_stinv quests s t lvl hinv ht hgood
      have hvok1 := setStep_vok quests s t lvl hids hinv hvok ht hgood hguard
      have hch : ∀ c ∈ quests.filter (fun c => decide (t.id ∈ c.prerequisites)),
          c ∈ quests ∧ c.prerequisites ≠ [] := by
        intro c hc
        rw [List.mem_filter] at hc
        exact ⟨hc.1, List.ne_nil_of_mem (of_decide_eq_true hc.2)⟩
      have h0set := assignChildrenAux_zero_intro quests hids f ih _ _ s'
        hinv1 hvok1 hch h id h0
      by_cases hid : id = t.id
      · subst hid
        rw [show lookupLevel (setLevel s.levels t.id lvl) t.id = some lvl from
          lookupLevel_setLevel_self _ _ _] at h0set
        exact Or.inr ⟨Option.some.inj h0set, rfl⟩
      · rw [show lookupLevel (setLevel s.levels t.id lvl) id = lookupLevel s.levels id from
          lookupLevel_setLevel_ne _ _ _ _ (fun he => hid he.symm)] at h0set
        exact Or.inl h0set

theorem processRoots_zero_intro (quests : List Quest)
    (hids : (quests.map Quest.id).Nodup) (fuel : Nat) :
    ∀ rs s s', StInv quests s → VOK quests s.levels →
      (∀ r ∈ rs, r ∈ quests ∧ r.prerequisites = []) →
      processRoots quests fuel s rs = some s' →
      ∀ id, lookupLevel s'.levels id = some 0 →
        lookupLevel s.levels id = some 0 ∨ ∃ r ∈ rs, r.id = id := by
  intro rs
  induction rs with
  | nil =>
    intro s s' _ _ _ h id h0
    obtain rfl : s = s' := Option.some.inj h
    exact Or.inl h0
  | cons r rest ih =>
    intro s s' hinv hvok hrs h id h0
    obtain ⟨⟨hrq, hre⟩, hrest⟩ :
        (r ∈ quests ∧ r.prerequisites = []) ∧ ∀ d ∈ rest, d ∈ quests ∧ d.prerequisites = [] :=
      ⟨hrs r (List.mem_cons_self r rest), fun d hd => hrs d (List.mem_cons_of_mem r hd)⟩
    simp only [processRoots] at h
    cases hmid : assignLevel quests fuel s r 0 with
    | none => rw [hmid] at h; exact Option.noConfusion h
    | some smid =>
      rw [hmid] at h
      obtain ⟨hinv1, hvok1, _, _⟩ :=
        assignLevel_master quests hids fuel s r 0 smid hinv hvok hrq (Or.inl ⟨hre, rfl⟩) hmid
      rcases ih smid s' hinv1 hvok1 hrest h id h0 with hmid0 | ⟨r2, hr2, hid2⟩
      · rcases assignLevel_zero_intro quests hids fuel s r 0 smid hinv hvok hrq
          (Or.inl ⟨hre, rfl⟩) hmid id hmid0 with hpre | ⟨_, rfl⟩
        · exact Or.inl hpre
        · exact Or.inr ⟨r, List.mem_cons_self r rest, rfl⟩
      · exact Or.inr ⟨r2, List.mem_cons_of_mem r hr2, hid2⟩

theorem processRoots_qid (quests : List Quest)
    (hids : (quests.map Quest.id).Nodup) (qid : String)
    (hq0 : ∀ x ∈ quests, x.id = qid → x.prerequisites = []) (fuel : Nat) :
    ∀ rs s s', StInv quests s → VOK quests s.levels →
      (∀ r ∈ rs, r ∈ quests ∧ r.prerequisites = []) →
      processRoots quests fuel s rs = some s' →
      (lookupLevel s.levels qid = none ∨ lookupLevel s.levels qid = some 0) →
      ((lookupLevel s'.levels qid = none ∨ lookupLevel s'.levels qid = some 0) ∧
       (lookupLevel s.levels qid = some 0 → lookupLevel s'.levels qid = some 0) ∧
       (∀ r ∈ rs, r.id = qid → lookupLevel s'.levels qid = some 0)) := by
  intro rs
  induction rs with
  | nil =>
    intro s s' _ _ _ h hpre
    obtain rfl : s = s' := Option.some.inj h
    exact ⟨hpre, fun h0 => h0, fun r hr => absurd hr (by simp)⟩
  | cons r rest ih =>
    intro s s' hinv hvok hrs h hpre
    obtain ⟨⟨hrq, hre⟩, hrest⟩ :
        (r ∈ quests ∧ r.prerequisites = []) ∧ ∀ d ∈ rest, d ∈ quests ∧ d.prerequisites = [] :=
      ⟨hrs r (List.mem_cons_self r rest), fun d hd => hrs d (List.mem_cons_of_mem r hd)⟩
    simp only [processRoots] at h
    cases hmid : assignLevel quests fuel s r 0 with
    | none => rw [hmid] at h; exact Option.noConfusion h
    | some smid =>
      rw [hmid] at h
      have hgood : goodCall s r 0 := Or.inl ⟨hre, rfl⟩
      obtain ⟨hinv1, hvok1, _, _⟩ :=
        assignLevel_master quests hids fuel s r 0 smid hinv hvok hrq hgood hmid
      have hcases := assignLevel_qid_cases quests hids qid hq0 fuel s r 0 smid
        hinv hvok hrq hgood hmid
      by_cases hrid : r.id = qid
      · have hmid0 : lookupLevel smid.levels qid = some 0 := hcases.2 hrid hpre
        obtain ⟨hpost, hkeep, _⟩ := ih smid s' hinv1 hvok1 hrest h (Or.inr hmid0)
        exact ⟨hpost, fun _ => hkeep hmid0, fun _ _ _ => hkeep hmid0⟩
      · have hunch : lookupLevel smid.levels qid = lookupLevel s.levels qid := hcases.1 hrid
        obtain ⟨hpost, hkeep, hassign⟩ := ih smid s' hinv1 hvok1 hrest h (hunch ▸ hpre)
        refine ⟨hpost, fun h0 => hkeep (hunch.trans h0), ?_⟩
        intro r2 hr2 hr2id
        rcases List.mem_cons.mp hr2 with rfl | hr2m
        · exact absurd hr2id hrid
        · exact hassign r2 hr2m hr2id

theorem sweepPass_qid (quests : List Quest)
    (hids : (quests.map Quest.id).Nodup) (qid : String)
    (hq0 : ∀ x ∈ quests, x.id = qid → x.prerequisites = []) (fuel : Nat) :
    ∀ cs s s', StInv quests s → VOK quests s.levels →
      (∀ c ∈ cs, c ∈ quests) →
      sweepPass quests fuel s cs = some s' →
      (lookupLevel s.levels qid = none ∨ lookupLevel s.levels qid = some 0) →
      ((lookupLevel s'.levels qid = none ∨ lookupLevel s'.levels qid = some 0) ∧
       (lookupLevel s.levels qid = some 0 → lookupLevel s'.levels qid = some 0) ∧
       (∀ q ∈ cs, q.id = qid → lookupLevel s'.levels qid = some 0)) := by
  intro cs
  induction cs with
  | nil =>
    intro s s' _ _ _ h hpre
    obtain rfl : s = s' := Option.some.inj h
    exact ⟨hpre, fun h0 => h0, fun q hq => absurd hq (by simp)⟩
  | cons c rest ih =>
    intro s s' hinv hvok hcs h hpre
    have hcq : c ∈ quests := hcs c (List.mem_cons_self c rest)
    have hrest : ∀ d ∈ rest, d ∈ quests := fun d hd => hcs d (List.mem_cons_of_mem c hd)
    simp only [sweepPass] at h
    by_cases hpr : c.id ∈ s.processed
    · rw [if_pos hpr] at h
      obtain ⟨hpost, hkeep, hassign⟩ := ih s s' hinv hvok hrest h hpre
      refine ⟨hpost, hkeep, ?_⟩
      intro q hq hqid
      rcases List.mem_cons.mp hq with rfl | hqm
      · have hsome : (lookupLevel s.levels qid).isSome := by
          rw [← hqid]
          exact (hinv.procIffLevel q.id).mp hpr
        rcases hpre with hpre | hpre
        · rw [hpre] at hsome
          exact absurd hsome (by simp)
        · exact hkeep hpre
      · exact hassign q hqm hqid
    · rw [if_neg hpr] at h
      by_cases hcond : 0 < (resolvedLevels s.levels c.prerequisites).length ∨
          c.prerequisites.length = 0
      · rw [if_pos hcond] at h
        have hgood : goodCall s c
            (if 0 < (resolvedLevels s.levels c.prerequisites).length then
              listMax (resolvedLevels s.levels c.prerequisites) + 1 else 0) := by
          by_cases hlen : 0 < (resolvedLevels s.levels c.prerequisites).length
          · rw [if_pos hlen]
            exact Or.inr ⟨List.ne_nil_of_length_pos hlen, rfl⟩
          · rw [if_neg hlen]
            rcases hcond with hcond | hcond
            · exact absurd hcond hlen
            · exact Or.inl ⟨List.length_eq_zero.mp hcond, rfl⟩
        cases hmid : assignLevel quests fuel s c
            (if 0 < (resolvedLevels s.levels c.prerequisites).length then
              listMax (resolvedLevels s.levels c.prerequisites) + 1 else 0) with
        | none => rw [hmid] at h; exact Option.noConfusion h
        | some smid =>
          rw [hmid] at h
          obtain ⟨hinv1, hvok1, _, _⟩ :=
            assignLevel_master quests hids fuel s c _ smid hinv hvok hcq hgood hmid
          have hcases := assignLevel_qid_cases quests hids qid hq0 fuel s c _ smid
            hinv hvok hcq hgood hmid
          by_cases hcid : c.id = qid
          · have hmid0 : lookupLevel smid.levels qid = some 0 := hcases.2 hcid hpre
            obtain ⟨hpost, hkeep, _⟩ := ih smid s' hinv1 hvok1 hrest h (Or.inr hmid0)
            exact ⟨hpost, fun _ => hkeep hmid0, fun _ _ _ => hkeep hmid0⟩
          · have hunch : lookupLevel smid.levels qid = lookupLevel s.levels qid :=
              hcases.1 hcid
            obtain ⟨hpost, hkeep, hassign⟩ := ih smid s' hinv1 hvok1 hrest h (hunch ▸ hpre)
            refine ⟨hpost, fun h0 => hkeep (hunch.trans h0), ?_⟩
            intro q hq hqid
            rcases List.mem_cons.mp hq with rfl | hqm
            · exact absurd hqid hcid
            · exact hassign q hqm hqid
      · rw [if_neg hcond] at h
        obtain ⟨hpost, hkeep, hassign⟩ := ih s s' hinv hvok hrest h hpre
        refine ⟨hpost, hkeep, ?_⟩
        intro q hq hqid
        rcases List.mem_cons.mp hq with rfl | hqm
        · exfalso
          have : q.prerequisites = [] := hq0 q hcq hqid
          rw [this] at hcond
          simp at hcond
        · exact hassign q hqm hqid

theorem sweepLoop_qid (quests : List Quest)
    (hids : (quests.map Quest.id).Nodup) (qid : String)
    (hq0 : ∀ x ∈ quests, x.id = qid → x.prerequisites = []) (fuel : Nat) :
    ∀ attempts s s', StInv quests s → VOK quests s.levels →
      sweepLoop quests fuel attempts s = some s' →
      (lookupLevel s.levels qid = none ∨ lookupLevel s.levels qid = some 0) →
      ((lookupLevel s'.levels qid = none ∨ lookupLevel s'.levels qid = some 0) ∧
       (lookupLevel s.levels qid = some 0 → lookupLevel s'.levels qid = some 0)) := by
  intro attempts
  induction attempts with
  | zero =>
    intro s s' _ _ h hpre
    obtain rfl : s = s' := Option.some.inj h
    exact ⟨hpre, fun h0 => h0⟩
  | succ n ih =>
    intro s s' hinv hvok h hpre
    simp only [sweepLoop] at h
    by_cases hcond : s.processed.length < quests.length
    · rw [if_pos hcond] at h
      cases hmid : sweepPass quests fuel s quests with
      | none => rw [hmid] at h; exact Option.noConfusion h
      | some smid =>
        rw [hmid] at h
        obtain ⟨hinv1, hvok1, _⟩ :=
          sweepPass_master quests hids fuel quests s smid hinv hvok (fun c hc => hc) hmid
        obtain ⟨hpostP, hkeepP, _⟩ :=
          sweepPass_qid quests hids qid hq0 fuel quests s smid hinv hvok
            (fun c hc => hc) hmid hpre
        obtain ⟨hpost, hkeep⟩ := ih smid s' hinv1 hvok1 h hpostP
        exact ⟨hpost, fun h0 => hkeep (hkeepP h0)⟩
    · rw [if_neg hcond] at h
      obtain rfl : s = s' := Option.some.inj h
      exact ⟨hpre, fun h0 => h0⟩

theorem processed_length_lt (quests : List Quest) (s : LayoutState) (q : Quest)
    (hinv : StInv quests s) (hq : q ∈ quests) (hnp : q.id ∉ s.processed) :
    s.processed.length < quests.length := by
  classical
  have hnd : (q.id :: s.processed).Nodup := by
    rw [List.nodup_cons]
    exact ⟨hnp, hinv.procNodup⟩
  have hsub : (q.id :: s.processed) ⊆ quests.map Quest.id := by
    intro x hx
    rcases List.mem_cons.mp hx with rfl | hxm
    · exact List.mem_map_of_mem Quest.id hq
    · exact hinv.procSub x hxm
  have hlen : (q.id :: s.processed).length ≤ (quests.map Quest.id).length := by
    calc (q.id :: s.processed).length = (q.id :: s.processed).toFinset.card :=
      (List.toFinset_card_of_nodup hnd).symm
      _ ≤ (quests.map Quest.id).toFinset.card := Finset.card_le_card (fun x hx => by
          rw [List.mem_toFinset] at *
          exact hsub hx)
      _ ≤ (quests.map Quest.id).length := (quests.map Quest.id).toFinset_card_le
  rw [List.length_map] at hlen
  simp only [List.length_cons] at hlen
  omega

/-- C5: two-tier root seeding.  After the primary pass (`roots.forEach`):
every milestone quest with no prerequisites has level 0; conversely a quest
seeded at level 0 by the primary pass is a milestone with no prerequisites.
A quest with no prerequisites that is not a milestone has no level at all
after the primary pass, and reaches level 0 only through the fallback
sweep. -/
theorem root_seeding_two_tier (fuel : Nat) (quests : List Quest) (s1 s2 : LayoutState)
    (hids : (quests.map Quest.id).Nodup)
    (hp : processRoots quests fuel ⟨[], []⟩ (rootsOf quests) = some s1)
    (hs : sweepLoop quests fuel 10 s1 = some s2) :
    (∀ q ∈ quests, q.unlockMilestone = true → q.prerequisites = [] →
      lookupLevel s1.levels q.id = some 0 ∧ lookupLevel s2.levels q.id = some 0) ∧
    (∀ q ∈ quests, lookupLevel s1.levels q.id = some 0 →
      q.unlockMilestone = true ∧ q.prerequisites = []) ∧
    (∀ q ∈ quests, q.unlockMilestone = false → q.prerequisites = [] →
      lookupLevel s1.levels q.id = none ∧ lookupLevel s2.levels q.id = some 0) := by
  have hroots : ∀ r ∈ rootsOf quests, r ∈ quests ∧ r.prerequisites = [] := by
    intro r hr
    rw [rootsOf, List.mem_filter] at hr
    have hb := hr.2
    rw [Bool.and_eq_true] at hb
    exact ⟨hr.1, List.length_eq_zero.mp (of_decide_eq_true hb.2)⟩
  have hinv0 := stinv_init quests
  have hvok0 := vok_init quests
  obtain ⟨hinv1, hvok1, _⟩ :=
    processRoots_master quests hids fuel (rootsOf quests) ⟨[], []⟩ s1 hinv0 hvok0 hroots hp
  refine ⟨?_, ?_, ?_⟩
  · intro q hq hm hpre
    have hq0 : ∀ x ∈ quests, x.id = q.id → x.prerequisites = [] := by
      intro x hx hxid
      rw [List.inj_on_of_nodup_map hids hx hq hxid]
      exact hpre
    have hqroot : q ∈ rootsOf quests := by
      rw [rootsOf, List.mem_filter]
      refine ⟨hq, ?_⟩
      rw [hm, hpre]
      rfl
    obtain ⟨_, _, hassign⟩ := processRoots_qid quests hids q.id hq0 fuel
      (rootsOf quests) ⟨[], []⟩ s1 hinv0 hvok0 hroots hp (Or.inl rfl)
    have h1some := hassign q hqroot rfl
    exact ⟨h1some, (sweepLoop_qid quests hids q.id hq0 fuel 10 s1 s2
      hinv1 hvok1 hs (Or.inr h1some)).2 h1some⟩
  · intro q hq h0
    rcases processRoots_zero_intro quests hids fuel (rootsOf quests) ⟨[], []⟩ s1
        hinv0 hvok0 hroots hp q.id h0 with hpre | ⟨r, hr, hrid⟩
    · exact Option.noConfusion hpre
    · have hrq := (hroots r hr).1
      have hreq : r = q := List.inj_on_of_nodup_map hids hrq hq hrid
      rw [rootsOf, List.mem_filter] at hr
      have hb := hr.2
      rw [Bool.and_eq_true] at hb
      rw [← hreq]
      exact ⟨hb.1, List.length_eq_zero.mp (of_decide_eq_true hb.2)⟩
  · intro q hq hm hpre
    have hq0 : ∀ x ∈ quests, x.id = q.id → x.prerequisites = [] := by
      intro x hx hxid
      rw [List.inj_on_of_nodup_map hids hx hq hxid]
      exact hpre
    obtain ⟨hpost1, _, _⟩ := processRoots_qid quests hids q.id hq0 fuel
      (rootsOf quests) ⟨[], []⟩ s1 hinv0 hvok0 hroots hp (Or.inl rfl)
    have hnone : lookupLevel s1.levels q.id = none := by
      rcases hpost1 with hn | h0
      · exact hn
      · exfalso
        rcases processRoots_zero_intro quests hids fuel (rootsOf quests) ⟨[], []⟩ s1
            hinv0 hvok0 hroots hp q.id h0 with hpre2 | ⟨r, hr, hrid⟩
        · exact Option.noConfusion hpre2
        · have hrq := (hroots r hr).1
          have hreq : r = q := List.inj_on_of_nodup_map hids hrq hq hrid
          rw [rootsOf, List.mem_filter] at hr
          have hb := hr.2
          rw [Bool.and_eq_true] at hb
          rw [hreq, hm] at hb
          exact Bool.noConfusion hb.1
    refine ⟨hnone, ?_⟩
    have hnp : q.id ∉ s1.processed := by
      intro hc
      have := (hinv1.procIffLevel q.id).mp hc
      rw [hnone] at this
      exact Bool.noConfusion this
    have hcond := processed_length_lt quests s1 q hinv1 hq hnp
    rw [show (10 : Nat) = 9 + 1 from rfl] at hs
    simp only [sweepLoop] at hs
    rw [if_pos hcond] at hs
    cases hmid : sweepPass quests fuel s1 quests with
    | none => rw [hmid] at hs; exact Option.noConfusion hs
    | some smid =>
      rw [hmid] at hs
      obtain ⟨hinvm, hvokm, _⟩ :=
        sweepPass_master quests hids fuel quests s1 smid hinv1 hvok1 (fun c hc => hc) hmid
      obtain ⟨_, _, hassignP⟩ := sweepPass_qid quests hids q.id hq0 fuel quests s1 smid
        hinv1 hvok1 (fun c hc => hc) hmid (Or.inl hnone)
      have hm0 := hassignP q hq rfl
      exact (sweepLoop_qid quests hids q.id hq0 fuel 9 smid s2
        hinvm hvokm hs (Or.inr hm0)).2 hm0

theorem root_seeding_two_tier_witness :
    processRoots orphanQuests 20 ⟨[], []⟩ (rootsOf orphanQuests) = some orphanState1 ∧
    sweepLoop orphanQuests 20 10 orphanState1 = some orphanState2 ∧
    lookupLevel orphanState1.levels "R" = some 0 ∧
    lookupLevel orphanState1.levels "S" = none ∧
    lookupLevel orphanState2.levels "S" = some 0 := by
  have hp : processRoots orphanQuests 20 ⟨[], []⟩ (rootsOf orphanQuests) =
      some orphanState1 := by decide
  have hs : sweepLoop orphanQuests 20 10 orphanState1 = some orphanState2 := by decide
  have h := root_seeding_two_tier 20 orphanQuests orphanState1 orphanState2 (by decide) hp hs
  refine ⟨hp, hs, ?_, ?_, ?_⟩
  · exact (h.1 ⟨"R", true, []⟩ (by decide) rfl rfl).1
  · exact (h.2.2 ⟨"S", false, []⟩ (by decide) rfl rfl).1
  · exact (h.2.2 ⟨"S", false, []⟩ (by decide) rfl rfl).2

end QuestViewer
